import Mathlib

/-!
Shallow embedding of the Qwirkle engine (Go sources under src/go/engine)
and verification of the frozen specification claims.

Embedding conventions:
* `Tile` carries a shape and a color, each in {0..5} (`Fin 6`), matching the
  source's `Shape`/`Color` constants.
* The Go `Board` is a hash map from `Position` to `Tile`; it is embedded as an
  association list with unique keys maintained by `Board.set` (prepend after
  erasing the key).  `Board.get` is first-match lookup, which coincides with
  map lookup.
* The unbounded scanning loops of line extraction terminate because the board
  is finite; they are embedded with fuel `b.length + 1`, which is strictly
  larger than the number of occupied cells, hence never exhausted mid-run.
* Go `nil` pointers (the bag of a `GameState.Clone`) are embedded as `none`;
  an operation that would dereference a nil pointer returns `none` (a panic).
-/

namespace Qwirkle

/-- A Qwirkle tile: shape and color, each one of six values
(engine `Tile` struct, `shape*6+color` dense index). -/
structure Tile where
  shape : Fin 6
  color : Fin 6
deriving DecidableEq, Repr

/-- Dense tile index in [0, 36): `shape*6 + color` (engine `Tile.Index`). -/
def Tile.index (t : Tile) : Nat := t.shape.val * 6 + t.color.val

/-- Shape names, in the order of the engine's `Shape` constants. -/
def shapeName : Fin 6 → String
  | 0 => "Circle"
  | 1 => "Square"
  | 2 => "Diamond"
  | 3 => "Clover"
  | 4 => "Star"
  | 5 => "Starburst"

/-- Color names, in the order of the engine's `Color` constants. -/
def colorName : Fin 6 → String
  | 0 => "Red"
  | 1 => "Orange"
  | 2 => "Yellow"
  | 3 => "Green"
  | 4 => "Blue"
  | 5 => "Purple"

/-- `Tile.String()`: color name, a space, then shape name. -/
def tileName (t : Tile) : String := colorName t.color ++ " " ++ shapeName t.shape

/-- A board coordinate (engine `Position`): row and column, unbounded. -/
structure Position where
  row : Int
  col : Int
deriving DecidableEq, Repr

/-- The four orthogonal neighbors, in the source's order: up, down, left,
right (engine `Position.Neighbors`). -/
def Position.neighbors (p : Position) : List Position :=
  [⟨p.row - 1, p.col⟩, ⟨p.row + 1, p.col⟩, ⟨p.row, p.col - 1⟩, ⟨p.row, p.col + 1⟩]

/-- The origin (0,0), where the first tile of a game must go. -/
def origin : Position := ⟨0, 0⟩

/-- The board: a sparse map from positions to tiles (engine `Board`),
embedded as an association list with unique keys. -/
abbrev Board := List (Position × Tile)

namespace Board

/-- Map lookup (engine `Board.Get`): first entry with the given key. -/
def get : Board → Position → Option Tile
  | [], _ => none
  | (q, t) :: rest, p => if p = q then some t else get rest p

/-- Erase a key (engine `Board.Remove`). -/
def remove (b : Board) (p : Position) : Board :=
  b.filter (fun e => decide (e.1 ≠ p))

/-- Map assignment (engine `Board.Set`): replaces any tile at `p`. -/
def set (b : Board) (p : Position) (t : Tile) : Board :=
  (p, t) :: b.remove p

/-- Key-membership test (engine `Board.Has`). -/
def has (b : Board) (p : Position) : Bool :=
  (b.get p).isSome

/-- Emptiness test (engine `Board.IsEmpty`). -/
def isEmpty (b : Board) : Bool :=
  b = ([] : Board)

/-- Engine `Board.HasNeighbor`: some orthogonal neighbor is occupied. -/
def hasNeighbor (b : Board) (p : Position) : Bool :=
  p.neighbors.any (fun q => b.has q)

end Board

/-! ## Line extraction (engine `GetLine`, `GetHorizontalLine`, `GetVerticalLine`) -/

/-- The scanning loop of engine `GetLine`: walk from `(r, c)` in direction
`(dr, dc)` collecting tiles while cells are occupied.  The Go loop is bounded
by the (finite) number of occupied cells; the fuel passed by `getLine` exceeds
that number, so it is never exhausted mid-run. -/
def getLineAux (b : Board) (dr dc : Int) : Nat → Int → Int → List Tile
  | 0, _, _ => []
  | fuel + 1, r, c =>
    match b.get ⟨r, c⟩ with
    | some t => t :: getLineAux b dr dc fuel (r + dr) (c + dc)
    | none => []

/-- Engine `GetLine`: tiles outward from `pos` (excluded) in direction
`(dr, dc)`, until the first empty cell. -/
def getLine (b : Board) (pos : Position) (dr dc : Int) : List Tile :=
  getLineAux b dr dc (b.length + 1) (pos.row + dr) (pos.col + dc)

/-- Engine `GetHorizontalLine`: reversed left run, the center tile when
present, then the right run. -/
def getHorizontalLine (b : Board) (pos : Position) : List Tile :=
  let left := getLine b pos 0 (-1)
  let right := getLine b pos 0 1
  left.reverse ++ ((b.get pos).toList ++ right)

/-- Engine `GetVerticalLine`: reversed up run, the center tile when present,
then the down run. -/
def getVerticalLine (b : Board) (pos : Position) : List Tile :=
  let up := getLine b pos (-1) 0
  let down := getLine b pos 1 0
  up.reverse ++ ((b.get pos).toList ++ down)

/-- Engine `GetHorizontalLineFast`: the 7-slot `LineTiles` buffer is embedded
as the list of its filled slots.  The left scan counts the left run, the
buffer then receives the left tiles leftmost-first, the center tile, and the
right run, each append stopping once 7 slots are filled (`buf.count < 7`). -/
def getHorizontalLineFast (b : Board) (pos : Position) : List Tile :=
  let leftCount := (getLine b pos 0 (-1)).length
  let buf := ((List.range leftCount).map
    (fun (i : Nat) =>
      (b.get ⟨pos.row, pos.col - (leftCount : Int) + (i : Int)⟩).getD ⟨0, 0⟩)).take 7
  let buf := match b.get pos with
    | some t => (buf ++ [t]).take 7
    | none => buf
  (buf ++ getLine b pos 0 1).take 7

/-- Engine `GetVerticalLineFast`, analogous to the horizontal variant. -/
def getVerticalLineFast (b : Board) (pos : Position) : List Tile :=
  let upCount := (getLine b pos (-1) 0).length
  let buf := ((List.range upCount).map
    (fun (i : Nat) =>
      (b.get ⟨pos.row - (upCount : Int) + (i : Int), pos.col⟩).getD ⟨0, 0⟩)).take 7
  let buf := match b.get pos with
    | some t => (buf ++ [t]).take 7
    | none => buf
  (buf ++ getLine b pos 1 0).take 7

/-! ## Line validity (engine `IsValidLine`, `IsValidLineFast`) -/

/-- The duplicate loop of `IsValidLine`: walk the tiles with a `seen` table
of dense indices (the Go code uses a 36-slot boolean array; the set of marked
indices is embedded as a list).  Returns `true` when a duplicate is hit. -/
def dupScan : List Tile → List Nat → Bool
  | [], _ => false
  | t :: rest, seen =>
    if seen.contains t.index then true else dupScan rest (t.index :: seen)

/-- The same-color loop: every tile matches the first tile's color. -/
def allSameColor : List Tile → Bool
  | [] => true
  | t0 :: rest => rest.all (fun t => t.color = t0.color)

/-- The same-shape loop: every tile matches the first tile's shape. -/
def allSameShape : List Tile → Bool
  | [] => true
  | t0 :: rest => rest.all (fun t => t.shape = t0.shape)

/-- Engine `IsValidLine`: length ≤ 1, else length ≤ 6 and no duplicate dense
index and (all same color or all same shape). -/
def isValidLine (tiles : List Tile) : Bool :=
  if tiles.length ≤ 1 then true
  else if tiles.length > 6 then false
  else if dupScan tiles [] then false
  else if allSameColor tiles then true
  else allSameShape tiles

/-- Engine `IsValidLineFast` on a `LineTiles` buffer (embedded as the list of
its filled slots): structurally the same checks as `IsValidLine`. -/
def isValidLineFast (lt : List Tile) : Bool :=
  if lt.length ≤ 1 then true
  else if lt.length > 6 then false
  else if dupScan lt [] then false
  else if allSameColor lt then true
  else allSameShape lt

/-- The line-validity predicate exactly as the specification words it: length
≤ 1, or length ≤ 6 with no tile index repeated and all tiles sharing one
color or all sharing one shape. -/
def SpecValidLine (tiles : List Tile) : Prop :=
  tiles.length ≤ 1 ∨
    (tiles.length ≤ 6 ∧ (tiles.map Tile.index).Nodup ∧
      ((∀ t ∈ tiles, ∀ u ∈ tiles, t.color = u.color) ∨
       (∀ t ∈ tiles, ∀ u ∈ tiles, t.shape = u.shape)))

instance (tiles : List Tile) : Decidable (SpecValidLine tiles) := by
  unfold SpecValidLine; infer_instance

/-! ## Placement and move validation -/

/-- One proposed placement: a position and a tile (engine `Placement`). -/
structure Placement where
  pos : Position
  tile : Tile
deriving DecidableEq, Repr

/-- Engine `ValidatePlacement`: target empty; on the first placement of the
game's first move the position must be the origin (and line checks are
skipped); otherwise, when not flagged first, a neighbor is required; finally
both lines through the position, with the tile set, must be valid. -/
def validatePlacement (b : Board) (pos : Position) (t : Tile)
    (isFirstMove : Bool) : Bool :=
  if b.has pos then false
  else if isFirstMove && b.isEmpty then decide (pos = origin)
  else if !isFirstMove && !b.hasNeighbor pos then false
  else
    let b' := b.set pos t
    isValidLine (getHorizontalLine b' pos) && isValidLine (getVerticalLine b' pos)

/-- Engine `ValidateSingleTile` (the zero-allocation fast path). -/
def validateSingleTile (b : Board) (pos : Position) (t : Tile) : Bool :=
  if b.has pos then false
  else if b.isEmpty then decide (pos = origin)
  else if !b.hasNeighbor pos then false
  else
    let b' := b.set pos t
    isValidLineFast (getHorizontalLineFast b' pos) &&
      isValidLineFast (getVerticalLineFast b' pos)

/-- The validation loop of engine `ValidateMove`: validate each placement
against the test board, then apply it.  The `first` flag holds exactly for
index 0 when the move is the game's first and the original board is empty;
the recursive call always passes `false`. -/
def placeLoop : Board → List Placement → Bool → Option Board
  | tb, [], _ => some tb
  | tb, p :: rest, first =>
    if validatePlacement tb p.pos p.tile first then
      placeLoop (tb.set p.pos p.tile) rest false
    else none

/-- Column contiguity: every column in `[minCol, maxCol]` occupied. -/
def colsFilled (tb : Board) (row : Int) (minCol maxCol : Int) : Bool :=
  decide (∀ c ∈ Finset.Icc minCol maxCol, tb.has ⟨row, c⟩)

/-- Row contiguity: every row in `[minRow, maxRow]` occupied. -/
def rowsFilled (tb : Board) (col : Int) (minRow maxRow : Int) : Bool :=
  decide (∀ r ∈ Finset.Icc minRow maxRow, tb.has ⟨r, col⟩)

/-- Engine `ValidateMove`: single placements dispatch to the fast check;
otherwise collinearity, the placement loop, and contiguity of the covered
segment on the common axis. -/
def validateMove (b : Board) (ps : List Placement) (isFirstMove : Bool) : Bool :=
  match ps with
  | [p] => validateSingleTile b p.pos p.tile
  | [] => false
  | p0 :: rest =>
    let allSameRow := rest.all (fun p => p.pos.row = p0.pos.row)
    let allSameCol := rest.all (fun p => p.pos.col = p0.pos.col)
    if !allSameRow && !allSameCol then false
    else
      match placeLoop b (p0 :: rest) (isFirstMove && b.isEmpty) with
      | none => false
      | some tb =>
        if allSameRow then
          let cols := (p0 :: rest).map (fun p => p.pos.col)
          colsFilled tb p0.pos.row (cols.foldl min p0.pos.col)
            (cols.foldl max p0.pos.col)
        else
          let rows := (p0 :: rest).map (fun p => p.pos.row)
          rowsFilled tb p0.pos.col (rows.foldl min p0.pos.row)
            (rows.foldl max p0.pos.row)

/-! ## Scoring (engine `ScoreMove`) -/

/-- One scoring step of the `ScoreMove` loop for a line in one direction:
register the line's key (direction prefix plus the first tile's `String()`)
unless already scored, adding the line length and the Qwirkle bonus. -/
def scoreLineStep (pre : String) (line : List Tile) (acc : Nat × List String) :
    Nat × List String :=
  match line with
  | t0 :: _ :: _ =>
    let key := pre ++ tileName t0
    if acc.2.contains key then acc
    else (acc.1 + line.length + (if line.length = 6 then 6 else 0), key :: acc.2)
  | _ => acc

/-- Engine `ScoreMove`: after placements are applied to `b`, sum the lengths
of the horizontal and vertical lines through each placement, deduplicated by
the string key `direction ++ first tile name`, with a +6 bonus per line of
exactly six tiles; a move that scored zero and has a single placement scores
one. -/
def scoreMove (b : Board) (ps : List Placement) : Nat :=
  if ps = [] then 0
  else
    let acc := ps.foldl (fun acc p =>
      scoreLineStep "v" (getVerticalLine b p.pos)
        (scoreLineStep "h" (getHorizontalLine b p.pos) acc)) (0, [])
    if acc.1 = 0 ∧ ps.length = 1 then 1 else acc.1

/-- The leftmost position of the horizontal line through `pos`. -/
def hStart (b : Board) (pos : Position) : Position :=
  ⟨pos.row, pos.col - (getLine b pos 0 (-1)).length⟩

/-- The topmost position of the vertical line through `pos`. -/
def vStart (b : Board) (pos : Position) : Position :=
  ⟨pos.row - (getLine b pos (-1) 0).length, pos.col⟩

/-- One scoring step of the specification's sum: a maximal line is identified
by its direction and its leftmost/topmost position (which determines a
maximal run uniquely), so deduplication is by that pair. -/
def specScoreLineStep (isH : Bool) (start : Position) (line : List Tile)
    (acc : Nat × List (Bool × Position)) : Nat × List (Bool × Position) :=
  if line.length > 1 then
    if acc.2.contains (isH, start) then acc
    else (acc.1 + line.length + (if line.length = 6 then 6 else 0),
      (isH, start) :: acc.2)
  else acc

/-- The score as the specification words it: the sum, over every distinct
line of length ≥ 2 touching at least one placement, of the line's length,
plus 6 per line of exactly 6; a single placement forming no line of length
≥ 2 scores 1.  Lines are identified by direction and start position. -/
def specScoreMove (b : Board) (ps : List Placement) : Nat :=
  if ps = [] then 0
  else
    let acc := ps.foldl (fun acc p =>
      specScoreLineStep false (vStart b p.pos) (getVerticalLine b p.pos)
        (specScoreLineStep true (hStart b p.pos)
          (getHorizontalLine b p.pos) acc)) (0, [])
    if acc.1 = 0 ∧ ps.length = 1 then 1 else acc.1

/-! ## Hand (engine hand.go) -/

/-- Engine `Hand.Get`: the tile at a 0-based slot, or `none` out of range.
The Go index is a machine integer, embedded as `Int`. -/
def handGet (h : List Tile) (index : Int) : Option Tile :=
  if 0 ≤ index ∧ index < h.length then h.get? index.toNat else none

/-- Engine `Hand.Remove`: the removed tile and the shifted hand; an invalid
index removes nothing. -/
def handRemoveIdx (h : List Tile) (index : Int) : Option Tile × List Tile :=
  if 0 ≤ index ∧ index < h.length then
    (h.get? index.toNat, h.eraseIdx index.toNat)
  else (none, h)

/-- Insert into a descending list (used to embed the source's descending
bubble sort: any descending sort of the same index multiset produces the
same list, so insertion sort is an equivalent embedding). -/
def insertDesc (x : Int) : List Int → List Int
  | [] => [x]
  | y :: rest => if x ≥ y then x :: y :: rest else y :: insertDesc x rest

/-- Descending sort of the index list (`Hand.RemoveMultiple` sorts its copy
of the indices descending before removing). -/
def sortDesc (l : List Int) : List Int := l.foldr insertDesc []

/-- Engine `Hand.RemoveMultiple`: remove from highest to lowest index,
collecting the tiles that were actually removed. -/
def removeMultiple (h : List Tile) (indices : List Int) :
    List Tile × List Tile :=
  (sortDesc indices).foldl (fun acc idx =>
    match handRemoveIdx acc.2 idx with
    | (some t, h') => (acc.1 ++ [t], h')
    | (none, h') => (acc.1, h')) ([], h)

/-- Engine `Hand.Add`: append tiles, silently stopping at 6. -/
def handAdd (h : List Tile) (ts : List Tile) : List Tile :=
  ts.foldl (fun h t => if h.length ≥ 6 then h else h ++ [t]) h

/-- Remove the first tile equal to `t` (the removal loop of `PlayTiles`:
scan slots, remove the first match, break). -/
def removeFirstTile : List Tile → Tile → List Tile
  | [], _ => []
  | u :: rest, t => if u = t then rest else u :: removeFirstTile rest t

/-- Remove one matching tile per placement (`PlayTiles`, step (e)). -/
def removePlacements (hand : List Tile) (ps : List Placement) : List Tile :=
  ps.foldl (fun h p => removeFirstTile h p.tile) hand

/-- Engine `Hand.Refill` with the bag threaded through: draw
`6 - hand size` tiles (clamped by the bag) and add them.  The bag is
`none` when the Go pointer is nil (a state produced by `GameState.Clone`);
drawing from it dereferences nil, embedded as `none` (panic). -/
def refill (hand : List Tile) (bag : Option (List Tile)) :
    Option (List Tile × Option (List Tile)) :=
  let need := 6 - hand.length
  if need > 0 then
    match bag with
    | none => none
    | some b => some (handAdd hand (b.take need), some (b.drop need))
  else some (hand, bag)

/-! ## Game state (engine bag.go: GameState, PlayTiles, SwapTiles) -/

/-- Per-turn history entry (engine `MoveRecord`). -/
structure MoveRecord where
  player : Fin 2
  placements : List Placement
  score : Int
  wasSwap : Bool
  swapCount : Nat
deriving DecidableEq, Repr

/-- The complete game state (engine `GameState`).  The bag is an `Option`:
`none` embeds the nil `*Bag` pointer that `Clone` leaves behind.  The bag's
seeded generator is only consulted by `Bag.Return`'s reshuffle, which is
threaded as an explicit `shuffle` parameter of `swapTiles`. -/
structure GameState where
  board : Board
  bag : Option (List Tile)
  hand0 : List Tile
  hand1 : List Tile
  score0 : Int
  score1 : Int
  currentPlayer : Fin 2
  gameOver : Bool
  winner : Int
  history : List MoveRecord
  seed : Int
deriving DecidableEq, Repr

namespace GameState

/-- `Hands[i]`. -/
def hands (g : GameState) (i : Fin 2) : List Tile :=
  if i = 0 then g.hand0 else g.hand1

/-- Replace `Hands[i]`. -/
def setHand (g : GameState) (i : Fin 2) (h : List Tile) : GameState :=
  if i = 0 then { g with hand0 := h } else { g with hand1 := h }

/-- `Scores[i]`. -/
def score (g : GameState) (i : Fin 2) : Int :=
  if i = 0 then g.score0 else g.score1

/-- Add to `Scores[i]`. -/
def addScore (g : GameState) (i : Fin 2) (k : Int) : GameState :=
  if i = 0 then { g with score0 := g.score0 + k }
  else { g with score1 := g.score1 + k }

end GameState

/-- Engine `GameState.OtherPlayer`: `1 - CurrentPlayer`. -/
def otherPlayer (p : Fin 2) : Fin 2 := 1 - p

/-- One iteration of the `checkGameOver` loop for player `i`.  The Go
condition `hand.Size() == 0 && g.Bag.IsEmpty()` short-circuits, so the nil
bag is only dereferenced (outer `none` = panic) when the hand is empty.
Inner result: `some g'` when the player triggered game over (flag set and +6
bonus), `none` when not. -/
def cgoTry (g : GameState) (i : Fin 2) : Option (Option GameState) :=
  if g.hands i = [] then
    match g.bag with
    | none => none
    | some b =>
      if b.isEmpty then
        some (some { g.addScore i 6 with gameOver := true })
      else some none
  else some none

/-- The winner block of `checkGameOver`: runs only when the game is over;
winner is the strictly higher score, `-1` on a tie. -/
def applyWinner (g : GameState) : GameState :=
  if g.gameOver then
    { g with winner :=
        if g.score0 > g.score1 then 0
        else if g.score1 > g.score0 then 1
        else -1 }
  else g

/-- Engine `checkGameOver`: scan players 0 then 1, breaking at the first
whose hand is empty with the bag empty (that player gets +6 and the
game-over flag is set), then determine the winner. -/
def checkGameOver (g : GameState) : Option GameState :=
  match cgoTry g 0 with
  | none => none
  | some (some g1) => some (applyWinner g1)
  | some none =>
    match cgoTry g 1 with
    | none => none
    | some (some g1) => some (applyWinner g1)
    | some none => some (applyWinner g)

/-- Apply placements to the board in list order (`PlayTiles`, step (c)). -/
def applyPs (b : Board) (ps : List Placement) : Board :=
  ps.foldl (fun b p => b.set p.pos p.tile) b

/-- The score a move earns, computed on the board with placements applied. -/
def moveScore (g : GameState) (ps : List Placement) : Int :=
  (scoreMove (applyPs g.board ps) ps : Nat)

/-- `PlayTiles` after steps (c)-(d): board updated, score credited. -/
def playApplied (g : GameState) (ps : List Placement) : GameState :=
  ({ g with board := applyPs g.board ps } : GameState).addScore
    g.currentPlayer (moveScore g ps)

/-- `PlayTiles` after steps (e)-(f): played tiles removed from the current
hand, hand refilled from the bag (`none` = nil-bag panic). -/
def playRefilled (g : GameState) (ps : List Placement) : Option GameState :=
  let g1 := playApplied g ps
  match refill (removePlacements (g1.hands g.currentPlayer) ps) g1.bag with
  | none => none
  | some (hand2, bag2) =>
    some (({ g1 with bag := bag2 } : GameState).setHand g.currentPlayer hand2)

/-- `PlayTiles` after step (g): the move appended to the history. -/
def playRecorded (g : GameState) (ps : List Placement) : Option GameState :=
  (playRefilled g ps).map (fun g2 =>
    { g2 with history :=
        g2.history ++ [⟨g.currentPlayer, ps, moveScore g ps, false, 0⟩] })

/-- The tail of `PlayTiles`: pair the earned score with the final state,
toggling the current player iff the game continues. -/
def playFinish (sc : Int) : Option GameState → Option (Int × GameState)
  | none => none
  | some g4 =>
    if !g4.gameOver then
      some (sc, { g4 with currentPlayer := otherPlayer g4.currentPlayer })
    else some (sc, g4)

/-- Engine `GameState.PlayTiles`: reject when over or invalid (`-1`, state
untouched); otherwise apply placements, score and credit, remove played
tiles from the hand, refill, record history, run `checkGameOver`, and toggle
the current player iff the game continues.  Outer `none` = nil-bag panic. -/
def playTiles (g : GameState) (ps : List Placement) :
    Option (Int × GameState) :=
  if g.gameOver then some (-1, g)
  else if !(validateMove g.board ps g.board.isEmpty) then some (-1, g)
  else playFinish (moveScore g ps) ((playRecorded g ps).bind checkGameOver)

/-- Engine `GameState.SwapTiles`.  `shuffle` abstracts the seeded
Fisher-Yates reshuffle performed by `Bag.Return` (no verified claim depends
on the post-swap bag order).  Note the source's behavior on a partially
invalid index list: the hand has already been mutated by `RemoveMultiple`
when `false` is returned. -/
def swapTiles (shuffle : List Tile → List Tile) (g : GameState)
    (indices : List Int) : Option (Bool × GameState) :=
  if g.gameOver then some (false, g)
  else if indices = [] then some (false, g)
  else
    match g.bag with
    | none => none
    | some b =>
      if b.length < indices.length then some (false, g)
      else
        let hand := g.hands g.currentPlayer
        let rm := removeMultiple hand indices
        if rm.1.length ≠ indices.length then
          some (false, g.setHand g.currentPlayer rm.2)
        else
          let need := 6 - rm.2.length
          let hand2 := if need > 0 then handAdd rm.2 (b.take need) else rm.2
          let b2 := if need > 0 then b.drop need else b
          let g2 := ({ g with
            bag := some (shuffle (b2 ++ rm.1)) } : GameState).setHand
            g.currentPlayer hand2
          let g3 := { g2 with
            history := g2.history ++ [⟨g2.currentPlayer, [], 0, true,
              indices.length⟩],
            currentPlayer := otherPlayer g2.currentPlayer }
          some (true, g3)

/-- Engine `GameState.Clone`: board, hands, scores, flags, history and seed
are copied; the bag is left nil (`none`). -/
def clone (g : GameState) : GameState := { g with bag := none }

/-- Game states reachable from an empty board by successful `PlayTiles`
calls. -/
inductive Reaches : GameState → Prop
  | init (g : GameState) : g.board = [] → Reaches g
  | step (g : GameState) (ps : List Placement) (k : Int) (g' : GameState) :
      Reaches g → playTiles g ps = some (k, g') → 0 ≤ k → Reaches g'

/-- The string key `ScoreMove` registers for the maximal line identified by
direction and start position: the direction prefix followed by the printed
name of the tile at the start (the line's first tile). -/
def lineKey (b : Board) (k : Bool × Position) : String :=
  (if k.1 then "h" else "v") ++ tileName ((b.get k.2).getD ⟨0, 0⟩)

/-- A deduplication key denotes a line of length ≥ 2 through some placement:
a direction together with that line's start position. -/
def TouchedKey (b : Board) (ps : List Placement) (k : Bool × Position) : Prop :=
  ∃ q ∈ ps,
    (k.1 = true ∧ 1 < (getHorizontalLine b q.pos).length ∧
      k.2 = hStart b q.pos) ∨
    (k.1 = false ∧ 1 < (getVerticalLine b q.pos).length ∧
      k.2 = vStart b q.pos)

/-- No two distinct same-direction scored lines share a string key: on such
boards `ScoreMove`'s key-based deduplication coincides with deduplication by
line identity. -/
def KeyCollisionFree (b : Board) (ps : List Placement) : Prop :=
  (∀ p ∈ ps, ∀ q ∈ ps, 1 < (getHorizontalLine b p.pos).length →
    1 < (getHorizontalLine b q.pos).length →
    lineKey b (true, hStart b p.pos) = lineKey b (true, hStart b q.pos) →
    hStart b p.pos = hStart b q.pos) ∧
  (∀ p ∈ ps, ∀ q ∈ ps, 1 < (getVerticalLine b p.pos).length →
    1 < (getVerticalLine b q.pos).length →
    lineKey b (false, vStart b p.pos) = lineKey b (false, vStart b q.pos) →
    vStart b p.pos = vStart b q.pos)

instance (b : Board) (ps : List Placement) :
    Decidable (KeyCollisionFree b ps) := by
  unfold KeyCollisionFree
  infer_instance

/-! ## First-move placement orders -/

/-- Placements that lay a list of tiles consecutively rightward in row 0,
starting at column `off`. -/
def rowPlacementsFrom (off : Nat) : List Tile → List Placement
  | [] => []
  | t :: rest => ⟨⟨0, (off : Int)⟩, t⟩ :: rowPlacementsFrom (off + 1) rest

/-- Placements that lay a list of tiles rightward from the origin: the i-th
tile at position (0, i). -/
def rowPlacements (ts : List Tile) : List Placement := rowPlacementsFrom 0 ts

/-- The lookup function of a board holding the tiles of `ts` consecutively
rightward in row 0 from the origin (used to analyze validation of first
moves). -/
def rowGet (ts : List Tile) (q : Position) : Option Tile :=
  if q.row = 0 ∧ 0 ≤ q.col ∧ q.col < (ts.length : Int) then ts.get? q.col.toNat
  else none

/-! ## Concrete example states used by counterexamples and witnesses -/

/-- A full hand: the six red tiles. -/
def hRed : List Tile := [⟨0, 0⟩, ⟨1, 0⟩, ⟨2, 0⟩, ⟨3, 0⟩, ⟨4, 0⟩, ⟨5, 0⟩]

/-- A live two-player state: empty board, three tiles in the bag, both hands
full. -/
def gEx : GameState :=
  { board := [], bag := some [⟨1, 1⟩, ⟨1, 2⟩, ⟨1, 3⟩], hand0 := hRed,
    hand1 := hRed, score0 := 0, score1 := 0, currentPlayer := 0,
    gameOver := false, winner := -1, history := [], seed := 42 }

/-- A live state one play away from the end: one tile on the board, an empty
bag, one tile in each hand, player 0 ahead 10-3. -/
def gEnd : GameState :=
  { board := [(⟨0, 0⟩, ⟨0, 0⟩)], bag := some [], hand0 := [⟨1, 0⟩],
    hand1 := [⟨2, 2⟩], score0 := 10, score1 := 3, currentPlayer := 0,
    gameOver := false, winner := -1, history := [], seed := 1 }

/-- A board (with its move's placements applied) on which two distinct
vertical lines share an equal topmost tile, a Red Circle: the vertical line
through (0,0) is Red Circle, Red Square; the one through (0,2) is Red
Circle, Red Star, Red Diamond. -/
def bKeyClash : Board :=
  [(⟨0, 0⟩, ⟨1, 0⟩), (⟨0, 1⟩, ⟨3, 0⟩), (⟨0, 2⟩, ⟨2, 0⟩),
   (⟨-1, 0⟩, ⟨0, 0⟩), (⟨-1, 2⟩, ⟨4, 0⟩), (⟨-2, 2⟩, ⟨0, 0⟩)]

/-- The move whose placements are already applied on `bKeyClash`. -/
def psKeyClash : List Placement :=
  [⟨⟨0, 0⟩, ⟨1, 0⟩⟩, ⟨⟨0, 1⟩, ⟨3, 0⟩⟩, ⟨⟨0, 2⟩, ⟨2, 0⟩⟩]

/-- A row of eight equal tiles: a board no valid play can reach, on which
the allocating and buffered line extractions differ. -/
def row8 : Board :=
  (List.range 8).map (fun i => (⟨0, (i : Int)⟩, (⟨0, 0⟩ : Tile)))

/-- The state `playTiles gEx [(0,0) ↦ Red Circle]` produces: tile placed,
score 1 credited, the played tile replaced from the bag, turn passed. -/
def gExPlayRes : GameState :=
  { board := [(⟨0, 0⟩, ⟨0, 0⟩)], bag := some [⟨1, 2⟩, ⟨1, 3⟩],
    hand0 := [⟨1, 0⟩, ⟨2, 0⟩, ⟨3, 0⟩, ⟨4, 0⟩, ⟨5, 0⟩, ⟨1, 1⟩],
    hand1 := hRed, score0 := 1, score1 := 0, currentPlayer := 1,
    gameOver := false, winner := -1,
    history := [⟨0, [⟨⟨0, 0⟩, ⟨0, 0⟩⟩], 1, false, 0⟩], seed := 42 }

/-- The state `playTiles gEx [(0,0) ↦ Purple Starburst]` produces even
though Purple Starburst is not in hand 0: the move is accepted and the hand
is left untouched. -/
def gExGhostRes : GameState :=
  { board := [(⟨0, 0⟩, ⟨5, 5⟩)], bag := some [⟨1, 1⟩, ⟨1, 2⟩, ⟨1, 3⟩],
    hand0 := hRed, hand1 := hRed, score0 := 1, score1 := 0,
    currentPlayer := 1, gameOver := false, winner := -1,
    history := [⟨0, [⟨⟨0, 0⟩, ⟨5, 5⟩⟩], 1, false, 0⟩], seed := 42 }

/-- The state `playTiles gEnd [(0,1) ↦ Red Square]` produces: hand 0
empties with the bag empty, game over, +6 bonus, player 0 wins, no turn
toggle. -/
def gEndRes : GameState :=
  { board := [(⟨0, 1⟩, ⟨1, 0⟩), (⟨0, 0⟩, ⟨0, 0⟩)], bag := some [],
    hand0 := [], hand1 := [⟨2, 2⟩], score0 := 18, score1 := 3,
    currentPlayer := 0, gameOver := true, winner := 0,
    history := [⟨0, [⟨⟨0, 1⟩, ⟨1, 0⟩⟩], 2, false, 0⟩], seed := 1 }

/-- The state `playTiles gEx [(0,0) ↦ Red Circle, (0,1) ↦ Red Square]`
produces: a two-tile board reached by one valid first move. -/
def gEx2Res : GameState :=
  { board := [(⟨0, 1⟩, ⟨1, 0⟩), (⟨0, 0⟩, ⟨0, 0⟩)], bag := some [⟨1, 3⟩],
    hand0 := [⟨2, 0⟩, ⟨3, 0⟩, ⟨4, 0⟩, ⟨5, 0⟩, ⟨1, 1⟩, ⟨1, 2⟩],
    hand1 := hRed, score0 := 2, score1 := 0, currentPlayer := 1,
    gameOver := false, winner := -1,
    history := [⟨0, [⟨⟨0, 0⟩, ⟨0, 0⟩⟩, ⟨⟨0, 1⟩, ⟨1, 0⟩⟩], 2, false, 0⟩],
    seed := 42 }

/-! ## Basic board lemmas -/

theorem Board.get_remove (b : Board) (p q : Position) :
    (b.remove p).get q = if q = p then none else b.get q := by
  induction b with
  | nil => simp [remove, get]
  | cons e rest ih =>
    obtain ⟨r, t⟩ := e
    by_cases hrp : r = p
    · subst hrp
      by_cases hqr : q = r <;> simp [remove, get, hqr, List.filter] at ih ⊢ <;>
        simpa [remove, hqr] using ih
    · by_cases hqr : q = r
      · subst hqr
        simp [remove, List.filter, hrp, get]
      · simp [remove, List.filter, hrp, get, hqr] at ih ⊢
        simpa [remove] using ih

theorem Board.get_set (b : Board) (p : Position) (t : Tile) (q : Position) :
    (b.set p t).get q = if q = p then some t else b.get q := by
  by_cases h : q = p <;> simp [set, get, h, get_remove]

theorem Board.isEmpty_get (b : Board) (h : b.isEmpty = true) (p : Position) :
    b.get p = none := by
  have : b = [] := by simpa [isEmpty] using h
  subst this; rfl

/-- Elements of a scan sit on the board at consecutive offsets from the scan
start. -/
theorem getLineAux_get? (b : Board) (dr dc : Int) :
    ∀ (fuel : Nat) (r c : Int) (k : Nat) (t : Tile),
      (getLineAux b dr dc fuel r c).get? k = some t →
      b.get ⟨r + k * dr, c + k * dc⟩ = some t := by
  intro fuel
  induction fuel with
  | zero => intro r c k t h; simp [getLineAux] at h
  | succ n ih =>
    intro r c k t h
    rw [getLineAux] at h
    cases hg : b.get ⟨r, c⟩ with
    | none => rw [hg] at h; simp at h
    | some u =>
      rw [hg] at h
      cases k with
      | zero =>
        simp at h
        subst h
        simpa using hg
      | succ m =>
        simp only [List.get?_cons_succ] at h
        have := ih (r + dr) (c + dc) m t h
        have harg : r + dr + m * dr = r + (m + 1 : Nat) * dr := by push_cast; ring
        have harg2 : c + dc + m * dc = c + (m + 1 : Nat) * dc := by push_cast; ring
        rw [harg, harg2] at this
        exact this

/-- Characterization of a scan: if cells at offsets `0..m-1` hold the tiles
`f 0 .. f (m-1)` and the cell at offset `m` is empty, the scan returns
exactly those tiles (given enough fuel). -/
theorem getLineAux_eq_map (b : Board) (dr dc : Int) :
    ∀ (m fuel : Nat) (r c : Int) (f : Nat → Tile), m < fuel →
      (∀ j, j < m → b.get ⟨r + j * dr, c + j * dc⟩ = some (f j)) →
      b.get ⟨r + m * dr, c + m * dc⟩ = none →
      getLineAux b dr dc fuel r c = (List.range m).map f := by
  intro m
  induction m with
  | zero =>
    intro fuel r c f hfuel _ hend
    cases fuel with
    | zero => omega
    | succ n =>
      rw [getLineAux]
      simp only [Nat.cast_zero, zero_mul, add_zero] at hend
      rw [hend]
      simp
  | succ m ih =>
    intro fuel r c f hfuel hocc hend
    cases fuel with
    | zero => omega
    | succ n =>
      rw [getLineAux]
      have h0 : b.get ⟨r, c⟩ = some (f 0) := by
        have := hocc 0 (by omega)
        simpa using this
      rw [h0]
      have hrec : getLineAux b dr dc n (r + dr) (c + dc) =
          (List.range m).map (fun j => f (j + 1)) := by
        apply ih n (r + dr) (c + dc) (fun j => f (j + 1)) (by omega)
        · intro j hj
          have := hocc (j + 1) (by omega)
          have harg : r + (j + 1 : Nat) * dr = r + dr + j * dr := by push_cast; ring
          have harg2 : c + (j + 1 : Nat) * dc = c + dc + j * dc := by push_cast; ring
          rw [harg, harg2] at this
          exact this
        · have harg : r + (m + 1 : Nat) * dr = r + dr + m * dr := by push_cast; ring
          have harg2 : c + (m + 1 : Nat) * dc = c + dc + m * dc := by push_cast; ring
          rw [harg, harg2] at hend
          exact hend
      rw [hrec]
      rw [List.range_succ_eq_map]
      simp [Function.comp]

/-! ## Take/append helpers -/

theorem take_append_take {α : Type} (l m : List α) (n : Nat) :
    (l.take n ++ m).take n = (l ++ m).take n := by
  rw [List.take_append_eq_append_take, List.take_append_eq_append_take,
    List.take_take, Nat.min_self]
  have h : n - (l.take n).length = n - l.length := by
    simp [List.length_take]; omega
  rw [h]

/-! ## Scan characterization for the fast extraction variants -/

/-- The buffered variants read the scanned run back from the board,
outermost tile first; that reading is exactly the reversed run. -/
theorem scan_reverse (b : Board) (pos : Position) (dr dc : Int) :
    ((List.range (getLine b pos dr dc).length).map
      (fun (i : Nat) =>
        (b.get ⟨pos.row + (((getLine b pos dr dc).length : Int) - (i : Int)) * dr,
                pos.col + (((getLine b pos dr dc).length : Int) - (i : Int)) * dc⟩).getD
        ⟨0, 0⟩))
      = (getLine b pos dr dc).reverse := by
  apply List.ext_getElem
  · simp
  · intro k hk1 hk2
    simp only [List.getElem_map, List.getElem_range, List.getElem_reverse]
    have hk : k < (getLine b pos dr dc).length := by simpa using hk1
    have hlt : (getLine b pos dr dc).length - 1 - k <
        (getLine b pos dr dc).length := by omega
    have ht : (getLine b pos dr dc).get? ((getLine b pos dr dc).length - 1 - k) =
        some ((getLine b pos dr dc).get
          ⟨(getLine b pos dr dc).length - 1 - k, hlt⟩) :=
      List.get?_eq_get hlt
    simp only [getLine] at ht
    have hb := getLineAux_get? b dr dc (b.length + 1) (pos.row + dr)
      (pos.col + dc) ((getLine b pos dr dc).length - 1 - k)
      ((getLine b pos dr dc).get
        ⟨(getLine b pos dr dc).length - 1 - k, hlt⟩) ht
    have hc : (((getLine b pos dr dc).length - 1 - k : Nat) : Int) =
        ((getLine b pos dr dc).length : Int) - 1 - k := by omega
    have harg : pos.row + dr +
        (((getLine b pos dr dc).length - 1 - k : Nat) : Int) * dr =
        pos.row + (((getLine b pos dr dc).length : Int) - k) * dr := by
      rw [hc]; ring
    have harg2 : pos.col + dc +
        (((getLine b pos dr dc).length - 1 - k : Nat) : Int) * dc =
        pos.col + (((getLine b pos dr dc).length : Int) - k) * dc := by
      rw [hc]; ring
    rw [harg, harg2] at hb
    rw [hb]
    rfl

theorem getHorizontalLineFast_take (b : Board) (pos : Position) :
    getHorizontalLineFast b pos = (getHorizontalLine b pos).take 7 := by
  have hmap : ((List.range (getLine b pos 0 (-1)).length).map
      (fun (i : Nat) =>
        (b.get ⟨pos.row, pos.col - (getLine b pos 0 (-1)).length + i⟩).getD ⟨0, 0⟩))
      = (getLine b pos 0 (-1)).reverse := by
    rw [← scan_reverse b pos 0 (-1)]
    apply List.map_congr_left
    intro i _
    have hp : (⟨pos.row, pos.col - (getLine b pos 0 (-1)).length + i⟩ : Position) =
        ⟨pos.row + (((getLine b pos 0 (-1)).length : Int) - (i : Int)) * 0,
         pos.col + (((getLine b pos 0 (-1)).length : Int) - (i : Int)) * (-1)⟩ := by
      have h1 : pos.row = pos.row +
          (((getLine b pos 0 (-1)).length : Int) - (i : Int)) * 0 := by ring
      have h2 : pos.col - (getLine b pos 0 (-1)).length + i = pos.col +
          (((getLine b pos 0 (-1)).length : Int) - (i : Int)) * (-1) := by ring
      rw [← h1, ← h2]
    rw [hp]
  unfold getHorizontalLineFast getHorizontalLine
  simp only
  rw [hmap]
  cases hc : b.get pos with
  | some t => simp [take_append_take, List.append_assoc]
  | none => simp [take_append_take, List.append_assoc]

theorem getVerticalLineFast_take (b : Board) (pos : Position) :
    getVerticalLineFast b pos = (getVerticalLine b pos).take 7 := by
  have hmap : ((List.range (getLine b pos (-1) 0).length).map
      (fun (i : Nat) =>
        (b.get ⟨pos.row - (getLine b pos (-1) 0).length + i, pos.col⟩).getD ⟨0, 0⟩))
      = (getLine b pos (-1) 0).reverse := by
    rw [← scan_reverse b pos (-1) 0]
    apply List.map_congr_left
    intro i _
    have hp : (⟨pos.row - (getLine b pos (-1) 0).length + i, pos.col⟩ : Position) =
        ⟨pos.row + (((getLine b pos (-1) 0).length : Int) - (i : Int)) * (-1),
         pos.col + (((getLine b pos (-1) 0).length : Int) - (i : Int)) * 0⟩ := by
      have h1 : pos.row - (getLine b pos (-1) 0).length + i = pos.row +
          (((getLine b pos (-1) 0).length : Int) - (i : Int)) * (-1) := by ring
      have h2 : pos.col = pos.col +
          (((getLine b pos (-1) 0).length : Int) - (i : Int)) * 0 := by ring
      rw [← h1, ← h2]
    rw [hp]
  unfold getVerticalLineFast getVerticalLine
  simp only
  rw [hmap]
  cases hc : b.get pos with
  | some t => simp [take_append_take, List.append_assoc]
  | none => simp [take_append_take, List.append_assoc]

/-- C9: the claim that the allocating and the zero-allocation line
extractions agree element-for-element fails on a board holding a run of
eight tiles: the fixed 7-slot buffer truncates while the allocating variant
returns all eight tiles. -/
theorem claim_C9_counterexample :
    getHorizontalLineFast row8 ⟨0, 3⟩ ≠ getHorizontalLine row8 ⟨0, 3⟩ := by
  decide

/-- C9 (amended): for every board, position and direction, the buffered
variant returns exactly the first seven tiles of the allocating variant's
line; in particular the two variants agree element-for-element whenever the
line holds at most seven tiles (always the case on boards arising in valid
play). -/
theorem claim_C9_amended (b : Board) (pos : Position) :
    getHorizontalLineFast b pos = (getHorizontalLine b pos).take 7 ∧
    getVerticalLineFast b pos = (getVerticalLine b pos).take 7 ∧
    ((getHorizontalLine b pos).length ≤ 7 →
      getHorizontalLineFast b pos = getHorizontalLine b pos) ∧
    ((getVerticalLine b pos).length ≤ 7 →
      getVerticalLineFast b pos = getVerticalLine b pos) := by
  refine ⟨getHorizontalLineFast_take b pos, getVerticalLineFast_take b pos,
    fun h => ?_, fun h => ?_⟩
  · rw [getHorizontalLineFast_take, List.take_of_length_le h]
  · rw [getVerticalLineFast_take, List.take_of_length_le h]

/-- C9 witness: the amended statement evaluated on the key-clash example
board at (0,1), whose lines have at most seven tiles. -/
theorem claim_C9_amended_witness :
    getHorizontalLineFast bKeyClash ⟨0, 1⟩ = getHorizontalLine bKeyClash ⟨0, 1⟩ :=
  (claim_C9_amended bKeyClash ⟨0, 1⟩).2.2.1 (by decide)

/-- C10: hand indexing is total: `Get` yields the tile at the 0-based slot
exactly when `0 ≤ index < size` and nil (`none`) otherwise, and `Remove`
with an out-of-range index yields nil and leaves the hand unchanged. -/
theorem claim_C10_hand_total (h : List Tile) (i : Int) :
    (∀ hi : 0 ≤ i ∧ i < h.length,
      ∃ hlt : i.toNat < h.length, handGet h i = some (h.get ⟨i.toNat, hlt⟩)) ∧
    (¬(0 ≤ i ∧ i < h.length) → handGet h i = none) ∧
    (¬(0 ≤ i ∧ i < h.length) → handRemoveIdx h i = (none, h)) := by
  refine ⟨?_, ?_, ?_⟩
  · rintro ⟨h0, hlen⟩
    have hlt : i.toNat < h.length := by omega
    exact ⟨hlt, by simp [handGet, h0, hlen, List.get?_eq_get hlt]⟩
  · intro hc
    simp only [handGet, if_neg hc]
  · intro hc
    simp only [handRemoveIdx, if_neg hc]

/-- C10 witness: slot 2 of the red hand, and removal at index -1. -/
theorem claim_C10_hand_total_witness :
    handGet hRed 2 = some ⟨2, 0⟩ ∧ handRemoveIdx hRed (-1) = (none, hRed) := by
  constructor
  · obtain ⟨hlt, heq⟩ := (claim_C10_hand_total hRed 2).1 ⟨by decide, by decide⟩
    rw [heq]; rfl
  · exact (claim_C10_hand_total hRed (-1)).2.2 (by decide)

/-- C3: the claim that every failing `SwapTiles` leaves the state unchanged
is contradicted by the source on an index list mixing valid and invalid
indices: `RemoveMultiple` has already removed the tiles at the valid
indices when `SwapTiles` returns false, and they are never restored (the
tile at slot 0 of `gEx`'s hand vanishes from the game). -/
theorem claim_C3_swap_failure_mutates :
    swapTiles id gEx [0, 6] =
      some (false,
        { gEx with hand0 := [⟨1, 0⟩, ⟨2, 0⟩, ⟨3, 0⟩, ⟨4, 0⟩, ⟨5, 0⟩] }) ∧
    ({ gEx with hand0 := [⟨1, 0⟩, ⟨2, 0⟩, ⟨3, 0⟩, ⟨4, 0⟩, ⟨5, 0⟩] } : GameState)
      ≠ gEx := by
  exact ⟨by decide, by decide⟩

/-- C5 counterexample: `PlayTiles` does not check hand membership: playing
a Purple Starburst that is absent from the current hand, at a valid
position, is accepted with score 1 and mutates the state — the claim says
it must be rejected with the state unchanged. -/
theorem claim_C5_counterexample :
    (⟨5, 5⟩ : Tile) ∉ gEx.hands gEx.currentPlayer ∧
    playTiles gEx [⟨⟨0, 0⟩, ⟨5, 5⟩⟩] = some (1, gExGhostRes) ∧
    gExGhostRes ≠ gEx := by
  exact ⟨by decide, by decide, by decide⟩

/-- C5 (amended): a single placement onto an occupied position is rejected
(`-1`) with the state unchanged; but `PlayTiles` performs no hand-membership
check, so a single placement of a tile absent from the current hand can be
accepted (witnessed on `gEx`). -/
theorem claim_C5_amended :
    (∀ (g : GameState) (p : Placement), g.board.has p.pos = true →
      playTiles g [p] = some (-1, g)) ∧
    playTiles gEx [⟨⟨0, 0⟩, ⟨5, 5⟩⟩] = some (1, gExGhostRes) := by
  constructor
  · intro g p hocc
    unfold playTiles
    by_cases hgo : g.gameOver
    · simp [hgo]
    · have hv : validateMove g.board [p] g.board.isEmpty = false := by
        unfold validateMove validateSingleTile
        simp [hocc]
      simp [hgo, hv]
  · decide

/-- C5 witness: the occupied-position rejection evaluated on a concrete
state with (0,0) occupied. -/
theorem claim_C5_amended_witness :
    playTiles { gEx with board := [(⟨0, 0⟩, ⟨0, 0⟩)] } [⟨⟨0, 0⟩, ⟨1, 0⟩⟩] =
      some (-1, { gEx with board := [(⟨0, 0⟩, ⟨0, 0⟩)] }) :=
  claim_C5_amended.1 { gEx with board := [(⟨0, 0⟩, ⟨0, 0⟩)] }
    ⟨⟨0, 0⟩, ⟨1, 0⟩⟩ (by decide)

/-! ## Line validity: characterization (C6) -/

theorem dupScan_eq_false (ts : List Tile) :
    ∀ seen : List Nat, dupScan ts seen = false ↔
      ((ts.map Tile.index).Nodup ∧ ∀ t ∈ ts, t.index ∉ seen) := by
  induction ts with
  | nil => intro seen; simp [dupScan]
  | cons t rest ih =>
    intro seen
    by_cases hc : seen.contains t.index
    · have hmem : t.index ∈ seen := by simpa using hc
      have hstep : dupScan (t :: rest) seen = true := by
        rw [dupScan, if_pos hc]
      rw [hstep]
      simp only [Bool.true_eq_false, false_iff, not_and, not_forall]
      intro _
      exact ⟨t, List.mem_cons_self t rest, by simpa using hmem⟩
    · have hmem : t.index ∉ seen := by simpa using hc
      have hstep : dupScan (t :: rest) seen = dupScan rest (t.index :: seen) := by
        rw [dupScan, if_neg hc]
      rw [hstep, ih (t.index :: seen)]
      simp only [List.map_cons, List.nodup_cons, List.mem_cons, List.mem_map,
        not_exists, not_or, not_and]
      constructor
      · rintro ⟨hnd, hall⟩
        refine ⟨⟨?_, hnd⟩, ?_⟩
        · intro u hu
          exact fun h => ((hall u hu).1 h).elim
        · intro u hu
          rcases hu with rfl | hu
          · exact hmem
          · exact (hall u hu).2
      · rintro ⟨⟨hni, hnd⟩, hall⟩
        refine ⟨hnd, fun u hu => ⟨?_, ?_⟩⟩
        · intro h
          exact hni u hu h
        · exact hall u (Or.inr hu)

theorem allSameColor_iff (ts : List Tile) :
    allSameColor ts = true ↔ ∀ t ∈ ts, ∀ u ∈ ts, t.color = u.color := by
  cases ts with
  | nil => simp [allSameColor]
  | cons t0 rest =>
    simp only [allSameColor, List.all_eq_true, decide_eq_true_eq]
    constructor
    · intro h t ht u hu
      have hcol : ∀ v, v ∈ t0 :: rest → v.color = t0.color := by
        intro v hv
        cases List.mem_cons.mp hv with
        | inl h' => rw [h']
        | inr h' => exact h v h'
      rw [hcol t ht, hcol u hu]
    · intro h t ht
      exact h t (List.mem_cons_of_mem t0 ht) t0 (List.mem_cons_self t0 rest)

theorem allSameShape_iff (ts : List Tile) :
    allSameShape ts = true ↔ ∀ t ∈ ts, ∀ u ∈ ts, t.shape = u.shape := by
  cases ts with
  | nil => simp [allSameShape]
  | cons t0 rest =>
    simp only [allSameShape, List.all_eq_true, decide_eq_true_eq]
    constructor
    · intro h t ht u hu
      have hsh : ∀ v, v ∈ t0 :: rest → v.shape = t0.shape := by
        intro v hv
        cases List.mem_cons.mp hv with
        | inl h' => rw [h']
        | inr h' => exact h v h'
      rw [hsh t ht, hsh u hu]
    · intro h t ht
      exact h t (List.mem_cons_of_mem t0 ht) t0 (List.mem_cons_self t0 rest)

theorem isValidLine_iff_spec (ts : List Tile) :
    isValidLine ts = true ↔ SpecValidLine ts := by
  by_cases h1 : ts.length ≤ 1
  · simp [isValidLine, h1, SpecValidLine]
  · by_cases h6 : ts.length > 6
    · simp only [isValidLine, if_neg h1, if_pos h6, SpecValidLine]
      constructor
      · intro h; cases h
      · intro h
        rcases h with h | ⟨h, -⟩ <;> omega
    · have hbody : isValidLine ts =
          (if dupScan ts [] then false
           else if allSameColor ts then true else allSameShape ts) := by
        simp [isValidLine, h1, h6]
      rw [hbody]
      by_cases hd : dupScan ts []
      · rw [if_pos hd]
        constructor
        · intro h; cases h
        · intro h
          rcases h with h | ⟨-, hnd, -⟩
          · omega
          · have := (dupScan_eq_false ts []).mpr ⟨hnd, by simp⟩
            rw [this] at hd; cases hd
      · rw [if_neg hd]
        have hnd : (ts.map Tile.index).Nodup :=
          ((dupScan_eq_false ts []).mp (by simpa using hd)).1
        by_cases hcol : allSameColor ts
        · rw [if_pos hcol]
          simp only [SpecValidLine]
          constructor
          · intro _
            exact Or.inr ⟨by omega, hnd, Or.inl ((allSameColor_iff ts).mp hcol)⟩
          · intro _; trivial
        · rw [if_neg hcol]
          simp only [SpecValidLine]
          constructor
          · intro hsh
            exact Or.inr ⟨by omega, hnd, Or.inr ((allSameShape_iff ts).mp hsh)⟩
          · intro h
            rcases h with h | ⟨-, -, hshare⟩
            · omega
            · rcases hshare with hc | hs
              · exact absurd ((allSameColor_iff ts).mpr hc) hcol
              · exact (allSameShape_iff ts).mpr hs

/-- C6: a tile sequence passes the engine's line validity exactly when the
specification's predicate holds — length ≤ 1, or length ≤ 6 with no tile
index repeated and all tiles sharing a color or all sharing a shape — and
the allocating check and the buffer-based fast check decide the same
predicate. -/
theorem claim_C6_line_validity (ts : List Tile) :
    (isValidLine ts = true ↔ SpecValidLine ts) ∧
    (isValidLineFast ts = true ↔ SpecValidLine ts) :=
  ⟨isValidLine_iff_spec ts, isValidLine_iff_spec ts⟩

/-! ## Game-state projection lemmas -/

theorem addScore_board (g : GameState) (i : Fin 2) (k : Int) :
    (g.addScore i k).board = g.board := by
  unfold GameState.addScore; split <;> rfl

theorem addScore_bag (g : GameState) (i : Fin 2) (k : Int) :
    (g.addScore i k).bag = g.bag := by
  unfold GameState.addScore; split <;> rfl

theorem addScore_hands (g : GameState) (i : Fin 2) (k : Int) (j : Fin 2) :
    (g.addScore i k).hands j = g.hands j := by
  unfold GameState.addScore GameState.hands; split <;> split <;> rfl

theorem addScore_currentPlayer (g : GameState) (i : Fin 2) (k : Int) :
    (g.addScore i k).currentPlayer = g.currentPlayer := by
  unfold GameState.addScore; split <;> rfl

theorem addScore_gameOver (g : GameState) (i : Fin 2) (k : Int) :
    (g.addScore i k).gameOver = g.gameOver := by
  unfold GameState.addScore; split <;> rfl

theorem addScore_history (g : GameState) (i : Fin 2) (k : Int) :
    (g.addScore i k).history = g.history := by
  unfold GameState.addScore; split <;> rfl

theorem addScore_score (g : GameState) (i : Fin 2) (k : Int) (j : Fin 2) :
    (g.addScore i k).score j = if j = i then g.score j + k else g.score j := by
  fin_cases i <;> fin_cases j <;> simp [GameState.addScore, GameState.score]

theorem setHand_hands (g : GameState) (i : Fin 2) (h : List Tile) (j : Fin 2) :
    (g.setHand i h).hands j = if j = i then h else g.hands j := by
  fin_cases i <;> fin_cases j <;> simp [GameState.setHand, GameState.hands]

theorem setHand_board (g : GameState) (i : Fin 2) (h : List Tile) :
    (g.setHand i h).board = g.board := by
  unfold GameState.setHand; split <;> rfl

theorem setHand_bag (g : GameState) (i : Fin 2) (h : List Tile) :
    (g.setHand i h).bag = g.bag := by
  unfold GameState.setHand; split <;> rfl

theorem setHand_currentPlayer (g : GameState) (i : Fin 2) (h : List Tile) :
    (g.setHand i h).currentPlayer = g.currentPlayer := by
  unfold GameState.setHand; split <;> rfl

theorem setHand_gameOver (g : GameState) (i : Fin 2) (h : List Tile) :
    (g.setHand i h).gameOver = g.gameOver := by
  unfold GameState.setHand; split <;> rfl

theorem setHand_history (g : GameState) (i : Fin 2) (h : List Tile) :
    (g.setHand i h).history = g.history := by
  unfold GameState.setHand; split <;> rfl

theorem setHand_score (g : GameState) (i : Fin 2) (h : List Tile) (j : Fin 2) :
    (g.setHand i h).score j = g.score j := by
  fin_cases i <;> fin_cases j <;> simp [GameState.setHand, GameState.score]

/-! ## PlayTiles: rejection and success shapes -/

theorem playTiles_reject_iff (g : GameState) (ps : List Placement) :
    playTiles g ps = some (-1, g) ↔
      (g.gameOver = true ∨ validateMove g.board ps g.board.isEmpty = false) := by
  constructor
  · intro h
    by_cases hgo : g.gameOver
    · exact Or.inl hgo
    · by_cases hval : validateMove g.board ps g.board.isEmpty
      · exfalso
        rw [playTiles, if_neg hgo, if_neg (by simp [hval])] at h
        rcases hb : (playRecorded g ps).bind checkGameOver with _ | g4 <;>
          rw [hb] at h
        · rw [playFinish] at h
          cases h
        · rw [playFinish] at h
          have hnn : (0 : Int) ≤ moveScore g ps := Int.natCast_nonneg _
          by_cases hover : g4.gameOver
          · rw [if_neg (by simp [hover])] at h
            have hms : moveScore g ps = -1 :=
              congrArg Prod.fst (Option.some.inj h)
            omega
          · rw [if_pos (by simp [hover])] at h
            have hms : moveScore g ps = -1 :=
              congrArg Prod.fst (Option.some.inj h)
            omega
      · exact Or.inr (by simpa using hval)
  · intro h
    rcases h with h | h
    · rw [playTiles, if_pos h]
    · rw [playTiles]
      by_cases hgo : g.gameOver
      · rw [if_pos hgo]
      · rw [if_neg hgo, if_pos (by simp [h])]

theorem playTiles_success (g : GameState) (ps : List Placement) (k : Int)
    (g' : GameState) (h : playTiles g ps = some (k, g')) (hk : 0 ≤ k) :
    g.gameOver = false ∧
    validateMove g.board ps g.board.isEmpty = true ∧
    k = moveScore g ps ∧
    ∃ gr gco, playRecorded g ps = some gr ∧ checkGameOver gr = some gco ∧
      g' = (if gco.gameOver = true then gco
            else { gco with currentPlayer := otherPlayer gco.currentPlayer }) := by
  by_cases hgo : g.gameOver
  · rw [playTiles, if_pos hgo] at h
    have : (-1 : Int) = k := congrArg Prod.fst (Option.some.inj h)
    omega
  · by_cases hval : validateMove g.board ps g.board.isEmpty
    · refine ⟨by simpa using hgo, hval, ?_⟩
      rw [playTiles, if_neg hgo, if_neg (by simp [hval])] at h
      rcases hb : (playRecorded g ps).bind checkGameOver with _ | g4 <;>
        rw [hb] at h
      · rw [playFinish] at h
        cases h
      · obtain ⟨gr, hgr, hco⟩ := Option.bind_eq_some.mp hb
        rw [playFinish] at h
        by_cases hover : g4.gameOver
        · rw [if_neg (by simp [hover])] at h
          obtain ⟨hk', hg'⟩ := Prod.mk.injEq _ _ _ _ ▸ Option.some.inj h
          exact ⟨hk'.symm, gr, g4, hgr, hco, by rw [← hg', if_pos hover]⟩
        · rw [if_pos (by simp [hover])] at h
          obtain ⟨hk', hg'⟩ := Prod.mk.injEq _ _ _ _ ▸ Option.some.inj h
          exact ⟨hk'.symm, gr, g4, hgr, hco,
            by rw [← hg', if_neg (by simpa using hover)]⟩
    · rw [playTiles, if_neg hgo, if_pos (by simp [hval])] at h
      have : (-1 : Int) = k := congrArg Prod.fst (Option.some.inj h)
      omega

/-! ## Clone vs PlayTiles (C4) -/

theorem playApplied_hands (g : GameState) (ps : List Placement) (j : Fin 2) :
    (playApplied g ps).hands j = g.hands j := by
  rw [playApplied, addScore_hands]
  rfl

theorem playApplied_bag (g : GameState) (ps : List Placement) :
    (playApplied g ps).bag = g.bag := by
  rw [playApplied, addScore_bag]

theorem refill_nil_bag (hand : List Tile) (hlen : hand.length < 6) :
    refill hand none = none := by
  unfold refill
  rw [if_pos (by omega : 6 - hand.length > 0)]

theorem playRefilled_clone_none (g : GameState) (ps : List Placement)
    (hshort : (removePlacements (g.hands g.currentPlayer) ps).length < 6) :
    playRefilled (clone g) ps = none := by
  have h1 : refill (removePlacements
      ((playApplied (clone g) ps).hands (clone g).currentPlayer) ps)
      (playApplied (clone g) ps).bag = none := by
    rw [playApplied_hands, playApplied_bag]
    exact refill_nil_bag _ hshort
  simp only [playRefilled, h1]

/-- C4 counterexample: `Clone` leaves the bag nil, so while the original
state plays (0,0) ↦ Red Circle successfully (score 1), the same move on the
clone dereferences the nil bag during the hand refill (a panic) instead of
producing the same outcome. -/
theorem claim_C4_counterexample :
    playTiles gEx [⟨⟨0, 0⟩, ⟨0, 0⟩⟩] = some (1, gExPlayRes) ∧
    playTiles (clone gEx) [⟨⟨0, 0⟩, ⟨0, 0⟩⟩] = none := by
  exact ⟨by decide, by decide⟩

/-- C4 (amended): a clone agrees with the original exactly on rejected
moves (`-1` with the state untouched, in both); on any move the original
accepts that leaves the played hand short of six tiles, `PlayTiles` on the
clone dereferences the nil bag (crashes) rather than reproducing the
original's outcome. -/
theorem claim_C4_amended :
    (∀ (g : GameState) (ps : List Placement),
      playTiles g ps = some (-1, g) ↔
        playTiles (clone g) ps = some (-1, clone g)) ∧
    (∀ (g : GameState) (ps : List Placement) (k : Int) (g' : GameState),
      playTiles g ps = some (k, g') → 0 ≤ k →
      (removePlacements (g.hands g.currentPlayer) ps).length < 6 →
      playTiles (clone g) ps = none) := by
  constructor
  · intro g ps
    rw [playTiles_reject_iff, playTiles_reject_iff]
    exact Iff.rfl
  · intro g ps k g' h hk hshort
    obtain ⟨hgo, hval, -, -⟩ := playTiles_success g ps k g' h hk
    rw [playTiles, if_neg (by simp [clone, hgo]), if_neg (by simp [clone, hval])]
    have hrec : playRecorded (clone g) ps = none := by
      rw [playRecorded, playRefilled_clone_none g ps hshort]
      rfl
    rw [hrec]
    rfl

/-- C4 witness: the crashing branch instantiated on `gEx`. -/
theorem claim_C4_amended_witness :
    playTiles (clone gEx) [⟨⟨0, 0⟩, ⟨0, 0⟩⟩] = none :=
  claim_C4_amended.2 gEx [⟨⟨0, 0⟩, ⟨0, 0⟩⟩] 1 gExPlayRes (by decide)
    (by decide) (by decide)

/-! ## End-of-game analysis (C7) -/

theorem fin2_eq_zero_or_one (i : Fin 2) : i = 0 ∨ i = 1 := by revert i; decide

theorem otherPlayer_ne (i : Fin 2) : otherPlayer i ≠ i := by revert i; decide

theorem applyWinner_board (g : GameState) : (applyWinner g).board = g.board := by
  unfold applyWinner; split <;> rfl

theorem applyWinner_bag (g : GameState) : (applyWinner g).bag = g.bag := by
  unfold applyWinner; split <;> rfl

theorem applyWinner_hands (g : GameState) (j : Fin 2) :
    (applyWinner g).hands j = g.hands j := by
  unfold applyWinner GameState.hands; split <;> split <;> rfl

theorem applyWinner_score (g : GameState) (j : Fin 2) :
    (applyWinner g).score j = g.score j := by
  unfold applyWinner GameState.score; split <;> split <;> rfl

theorem applyWinner_currentPlayer (g : GameState) :
    (applyWinner g).currentPlayer = g.currentPlayer := by
  unfold applyWinner; split <;> rfl

theorem applyWinner_gameOver (g : GameState) :
    (applyWinner g).gameOver = g.gameOver := by
  unfold applyWinner; split <;> rfl

theorem applyWinner_winner (g : GameState) (h : g.gameOver = true) :
    (applyWinner g).winner =
      if g.score0 > g.score1 then 0 else if g.score1 > g.score0 then 1 else -1 := by
  unfold applyWinner
  rw [if_pos h]

theorem refill_some_bag_of_empty (h : List Tile) (bag : Option (List Tile))
    (h2 : List Tile) (bag2 : Option (List Tile))
    (hr : refill h bag = some (h2, bag2)) (he : h2 = []) :
    ∃ b2, bag2 = some b2 := by
  unfold refill at hr
  by_cases hneed : 6 - h.length > 0
  · rw [if_pos hneed] at hr
    cases bag with
    | none => cases hr
    | some b =>
      obtain ⟨-, hb⟩ := Prod.mk.injEq _ _ _ _ ▸ Option.some.inj hr
      exact ⟨b.drop (6 - h.length), hb.symm⟩
  · rw [if_neg hneed] at hr
    obtain ⟨hh, -⟩ := Prod.mk.injEq _ _ _ _ ▸ Option.some.inj hr
    exfalso
    rw [← hh] at he
    subst he
    simp at hneed

theorem playRecorded_spec (g : GameState) (ps : List Placement)
    (gr : GameState) (h : playRecorded g ps = some gr) :
    ∃ hand2 bag2,
      refill (removePlacements (g.hands g.currentPlayer) ps) g.bag =
        some (hand2, bag2) ∧
      gr.hands g.currentPlayer = hand2 ∧
      (∀ j, j ≠ g.currentPlayer → gr.hands j = g.hands j) ∧
      gr.bag = bag2 ∧
      gr.currentPlayer = g.currentPlayer ∧
      gr.gameOver = g.gameOver ∧
      gr.score g.currentPlayer = g.score g.currentPlayer + moveScore g ps ∧
      (∀ j, j ≠ g.currentPlayer → gr.score j = g.score j) ∧
      gr.board = applyPs g.board ps := by
  obtain ⟨g2, hg2, hgr⟩ := Option.map_eq_some'.mp h
  rw [playRefilled] at hg2
  simp only [playApplied_hands, playApplied_bag] at hg2
  rcases hrf : refill (removePlacements (g.hands g.currentPlayer) ps) g.bag
    with _ | ⟨hand2, bag2⟩ <;> rw [hrf] at hg2
  · cases hg2
  · refine ⟨hand2, bag2, rfl, ?_⟩
    have hg2' : g2 = ({ playApplied g ps with bag := bag2 } : GameState).setHand
        g.currentPlayer hand2 := (Option.some.inj hg2).symm
    subst hg2'
    subst hgr
    have hhist : ∀ (x : GameState) (hist : List MoveRecord) (j : Fin 2),
        ({ x with history := hist } : GameState).hands j = x.hands j := by
      intro x hist j; unfold GameState.hands; rfl
    have hhistS : ∀ (x : GameState) (hist : List MoveRecord) (j : Fin 2),
        ({ x with history := hist } : GameState).score j = x.score j := by
      intro x hist j; unfold GameState.score; rfl
    have hbagH : ∀ (x : GameState) (bg : Option (List Tile)) (j : Fin 2),
        ({ x with bag := bg } : GameState).hands j = x.hands j := by
      intro x bg j; unfold GameState.hands; rfl
    have hbagS : ∀ (x : GameState) (bg : Option (List Tile)) (j : Fin 2),
        ({ x with bag := bg } : GameState).score j = x.score j := by
      intro x bg j; unfold GameState.score; rfl
    refine ⟨?_, ?_, ?_, ?_, ?_, ?_, ?_, ?_⟩
    · rw [hhist, setHand_hands]
      simp
    · intro j hj
      rw [hhist, setHand_hands, if_neg hj, hbagH, playApplied_hands]
    · rw [show ∀ (x : GameState) (hist : List MoveRecord),
          ({ x with history := hist } : GameState).bag = x.bag from
          fun x hist => rfl, setHand_bag]
    · rw [show ∀ (x : GameState) (hist : List MoveRecord),
          ({ x with history := hist } : GameState).currentPlayer =
            x.currentPlayer from fun x hist => rfl, setHand_currentPlayer]
      rw [show ∀ (x : GameState) (bg : Option (List Tile)),
          ({ x with bag := bg } : GameState).currentPlayer = x.currentPlayer from
          fun x bg => rfl]
      rw [playApplied, addScore_currentPlayer]
    · rw [show ∀ (x : GameState) (hist : List MoveRecord),
          ({ x with history := hist } : GameState).gameOver = x.gameOver from
          fun x hist => rfl, setHand_gameOver]
      rw [show ∀ (x : GameState) (bg : Option (List Tile)),
          ({ x with bag := bg } : GameState).gameOver = x.gameOver from
          fun x bg => rfl]
      rw [playApplied, addScore_gameOver]
    · rw [hhistS, setHand_score, hbagS, playApplied, addScore_score]
      simp [GameState.score]
    · intro j hj
      rw [hhistS, setHand_score, hbagS, playApplied, addScore_score, if_neg hj]
      rfl
    · rw [show ∀ (x : GameState) (hist : List MoveRecord),
          ({ x with history := hist } : GameState).board = x.board from
          fun x hist => rfl, setHand_board]
      rw [show ∀ (x : GameState) (bg : Option (List Tile)),
          ({ x with bag := bg } : GameState).board = x.board from
          fun x bg => rfl]
      rw [playApplied, addScore_board]

theorem fin2_eq_self_or_other (j i : Fin 2) : j = i ∨ j = otherPlayer i := by
  revert j i; decide

theorem applyWinner_of_not_over (g : GameState) (h : g.gameOver = false) :
    applyWinner g = g := by
  unfold applyWinner
  rw [if_neg (by simp [h])]

theorem checkGameOver_no_empty (g : GameState) (h0 : g.hands 0 ≠ [])
    (h1 : g.hands 1 ≠ []) : checkGameOver g = some (applyWinner g) := by
  unfold checkGameOver cgoTry
  rw [if_neg h0, if_neg h1]

theorem checkGameOver_current_empty (g : GameState) (b : List Tile)
    (hO : g.hands (otherPlayer g.currentPlayer) ≠ [])
    (hE : g.hands g.currentPlayer = []) (hb : g.bag = some b) :
    checkGameOver g =
      some (applyWinner (if b.isEmpty then
        { g.addScore g.currentPlayer 6 with gameOver := true } else g)) := by
  rcases fin2_eq_zero_or_one g.currentPlayer with hcp | hcp
  · have h1 : g.hands 1 ≠ [] := by
      rw [hcp] at hO
      exact hO
    rw [hcp] at hE ⊢
    by_cases hbe : b.isEmpty
    · rw [if_pos hbe]
      unfold checkGameOver cgoTry
      rw [if_pos hE, hb]
      dsimp only
      rw [if_pos hbe]
    · rw [if_neg hbe]
      unfold checkGameOver cgoTry
      rw [if_pos hE, hb]
      dsimp only
      rw [if_neg hbe, if_neg h1]
  · have h0 : g.hands 0 ≠ [] := by
      rw [hcp] at hO
      exact hO
    rw [hcp] at hE ⊢
    by_cases hbe : b.isEmpty
    · rw [if_pos hbe]
      unfold checkGameOver cgoTry
      rw [if_neg h0, if_pos hE, hb]
      dsimp only
      rw [if_pos hbe]
    · rw [if_neg hbe]
      unfold checkGameOver cgoTry
      rw [if_neg h0, if_pos hE, hb]
      dsimp only
      rw [if_neg hbe]

/-- C7: after a successful `PlayTiles` (in a position where the opponent
still holds tiles, as is the case in every reachable live game): the
game-over flag is set iff some hand is empty with the bag empty; in that
case the emptying player — the mover — got the +6 bonus on top of the move
score while the opponent's score is unchanged; the winner is the player
with the strictly higher score (−1 on a tie); and the current player
toggles exactly when the game continues. -/
theorem claim_C7_end_of_game (g : GameState) (ps : List Placement) (k : Int)
    (g' : GameState) (h : playTiles g ps = some (k, g')) (hk : 0 ≤ k)
    (hOther : g.hands (otherPlayer g.currentPlayer) ≠ []) :
    (g'.gameOver = true ↔ ∃ i : Fin 2, g'.hands i = [] ∧ g'.bag = some []) ∧
    (g'.gameOver = true →
      g'.hands g.currentPlayer = [] ∧
      g'.score g.currentPlayer = g.score g.currentPlayer + k + 6 ∧
      g'.score (otherPlayer g.currentPlayer) =
        g.score (otherPlayer g.currentPlayer)) ∧
    (g'.gameOver = true →
      (g'.score 0 > g'.score 1 → g'.winner = 0) ∧
      (g'.score 1 > g'.score 0 → g'.winner = 1) ∧
      (g'.score 0 = g'.score 1 → g'.winner = -1)) ∧
    (g'.currentPlayer =
      if g'.gameOver = true then g.currentPlayer
      else otherPlayer g.currentPlayer) := by
  obtain ⟨hgo, -, hkeq, gr, gco, hgr, hco, hg'⟩ :=
    playTiles_success g ps k g' h hk
  obtain ⟨hand2, bag2, hrf, hhcp, hhother, hbag, hcp, hgrover, hsc, hscO, -⟩ :=
    playRecorded_spec g ps gr hgr
  have hgrO : gr.gameOver = false := by rw [hgrover, hgo]
  have hOther' : gr.hands (otherPlayer g.currentPlayer) =
      g.hands (otherPlayer g.currentPlayer) :=
    hhother _ (otherPlayer_ne g.currentPlayer)
  by_cases hh2 : hand2 = []
  · -- The mover's hand emptied; the bag pointer must be live.
    obtain ⟨b2, hb2⟩ := refill_some_bag_of_empty _ _ _ _ hrf hh2
    have hbag2 : gr.bag = some b2 := by rw [hbag, hb2]
    have hgrE : gr.hands gr.currentPlayer = [] := by
      rw [hcp, hhcp, hh2]
    have hgrOther : gr.hands (otherPlayer gr.currentPlayer) ≠ [] := by
      rw [hcp, hOther']
      exact hOther
    have hcge := checkGameOver_current_empty gr b2 hgrOther hgrE hbag2
    rw [hcge] at hco
    by_cases hbe : b2.isEmpty
    · -- game over triggered
      have hb2nil : b2 = [] := List.isEmpty_iff.mp hbe
      rw [if_pos hbe] at hco
      have hgw : gco = applyWinner
          { gr.addScore gr.currentPlayer 6 with gameOver := true } :=
        (Option.some.inj hco).symm
      have hgwover : gco.gameOver = true := by
        rw [hgw, applyWinner_gameOver]
      have hg'eq : g' = gco := by rw [hg', if_pos hgwover]
      have hupdOver : ∀ (x : GameState),
          ({ x with gameOver := true } : GameState).gameOver = true :=
        fun x => rfl
      have hupdHands : ∀ (x : GameState) (j : Fin 2),
          ({ x with gameOver := true } : GameState).hands j = x.hands j := by
        intro x j; unfold GameState.hands; rfl
      have hupdBag : ∀ (x : GameState),
          ({ x with gameOver := true } : GameState).bag = x.bag :=
        fun x => rfl
      have hupdScore : ∀ (x : GameState) (j : Fin 2),
          ({ x with gameOver := true } : GameState).score j = x.score j := by
        intro x j; unfold GameState.score; rfl
      have hupdCP : ∀ (x : GameState),
          ({ x with gameOver := true } : GameState).currentPlayer =
            x.currentPlayer := fun x => rfl
      have hG'hands : ∀ j, g'.hands j =
          ({ gr.addScore gr.currentPlayer 6 with
              gameOver := true } : GameState).hands j := by
        intro j; rw [hg'eq, hgw, applyWinner_hands]
      have hG'score : ∀ j, g'.score j = (gr.addScore gr.currentPlayer 6).score j := by
        intro j
        rw [hg'eq, hgw, applyWinner_score, hupdScore]
      have hG'over : g'.gameOver = true := by rw [hg'eq, hgwover]
      refine ⟨?_, ?_, ?_, ?_⟩
      · rw [hG'over]
        simp only [true_iff]
        refine ⟨g.currentPlayer, ?_, ?_⟩
        · rw [hG'hands, hupdHands, addScore_hands, hhcp, hh2]
        · rw [hg'eq, hgw, applyWinner_bag, hupdBag, addScore_bag, hbag2, hb2nil]
      · intro _
        refine ⟨?_, ?_, ?_⟩
        · rw [hG'hands, hupdHands, addScore_hands, hhcp, hh2]
        · rw [hG'score, addScore_score, hcp, if_pos rfl, hsc, hkeq]
        · rw [hG'score, addScore_score, hcp,
            if_neg (otherPlayer_ne g.currentPlayer), hscO _
              (otherPlayer_ne g.currentPlayer)]
      · intro _
        have hwin : g'.winner =
            if ({ gr.addScore gr.currentPlayer 6 with
                gameOver := true } : GameState).score0 >
              ({ gr.addScore gr.currentPlayer 6 with
                gameOver := true } : GameState).score1 then 0
            else if ({ gr.addScore gr.currentPlayer 6 with
                gameOver := true } : GameState).score1 >
              ({ gr.addScore gr.currentPlayer 6 with
                gameOver := true } : GameState).score0 then 1 else -1 := by
          rw [hg'eq, hgw, applyWinner_winner _ (hupdOver _)]
        have hs0 : g'.score 0 = ({ gr.addScore gr.currentPlayer 6 with
            gameOver := true } : GameState).score0 := by
          rw [hG'score]
          show _ = ({ gr.addScore gr.currentPlayer 6 with
            gameOver := true } : GameState).score 0
          rw [hupdScore]
        have hs1 : g'.score 1 = ({ gr.addScore gr.currentPlayer 6 with
            gameOver := true } : GameState).score1 := by
          rw [hG'score]
          show _ = ({ gr.addScore gr.currentPlayer 6 with
            gameOver := true } : GameState).score 1
          rw [hupdScore]
        refine ⟨?_, ?_, ?_⟩
        · intro hgt
          rw [hs0, hs1] at hgt
          rw [hwin, if_pos hgt]
        · intro hgt
          rw [hs0, hs1] at hgt
          rw [hwin, if_neg (by omega), if_pos hgt]
        · intro heq
          rw [hs0, hs1] at heq
          rw [hwin, if_neg (by omega), if_neg (by omega)]
      · rw [hG'over, if_pos rfl, hg'eq, hgw, applyWinner_currentPlayer,
          hupdCP, addScore_currentPlayer, hcp]
    · -- The bag still holds tiles: the game continues.
      rw [if_neg hbe] at hco
      have hgco : gco = gr := by
        rw [← Option.some.inj hco, applyWinner_of_not_over gr hgrO]
      have hgcoO : gco.gameOver = false := by rw [hgco, hgrO]
      have hg'eq : g' =
          { gr with currentPlayer := otherPlayer gr.currentPlayer } := by
        rw [hg', if_neg (by simp [hgcoO]), hgco]
      have hcpBag : ∀ (x : GameState) (c : Fin 2),
          ({ x with currentPlayer := c } : GameState).bag = x.bag :=
        fun x c => rfl
      have hG'over : g'.gameOver = false := by rw [hg'eq]; exact hgrO
      refine ⟨?_, ?_, ?_, ?_⟩
      · rw [hG'over]
        simp only [Bool.false_eq_true, false_iff]
        rintro ⟨i, -, hbi⟩
        rw [hg'eq, hcpBag, hbag2] at hbi
        exact hbe (by rw [Option.some.inj hbi]; rfl)
      · intro habs
        rw [hG'over] at habs
        cases habs
      · intro habs
        rw [hG'over] at habs
        cases habs
      · rw [hG'over]
        simp only [Bool.false_eq_true, if_false]
        rw [hg'eq]
        show otherPlayer gr.currentPlayer = otherPlayer g.currentPlayer
        rw [hcp]
  · -- The mover's hand is not empty: the game continues.
    have h0 : gr.hands 0 ≠ [] := by
      rcases fin2_eq_self_or_other 0 g.currentPlayer with h | h
      · rw [h, hhcp]; exact hh2
      · rw [h, hOther']; exact hOther
    have h1 : gr.hands 1 ≠ [] := by
      rcases fin2_eq_self_or_other 1 g.currentPlayer with h | h
      · rw [h, hhcp]; exact hh2
      · rw [h, hOther']; exact hOther
    rw [checkGameOver_no_empty gr h0 h1] at hco
    have hgco : gco = gr := by
      rw [← Option.some.inj hco, applyWinner_of_not_over gr hgrO]
    have hgcoO : gco.gameOver = false := by rw [hgco, hgrO]
    have hg'eq : g' = { gr with currentPlayer := otherPlayer gr.currentPlayer } := by
      rw [hg', if_neg (by simp [hgcoO]), hgco]
    have hcpHands : ∀ (x : GameState) (c : Fin 2) (j : Fin 2),
        ({ x with currentPlayer := c } : GameState).hands j = x.hands j := by
      intro x c j; unfold GameState.hands; rfl
    have hG'over : g'.gameOver = false := by rw [hg'eq]; exact hgrO
    refine ⟨?_, ?_, ?_, ?_⟩
    · rw [hG'over]
      simp only [Bool.false_eq_true, false_iff]
      rintro ⟨i, hi, -⟩
      rcases fin2_eq_self_or_other i g.currentPlayer with hieq | hieq
      · rw [hg'eq, hcpHands, hieq, hhcp] at hi
        exact hh2 hi
      · rw [hg'eq, hcpHands, hieq, hOther'] at hi
        exact hOther hi
    · intro habs
      rw [hG'over] at habs
      cases habs
    · intro habs
      rw [hG'over] at habs
      cases habs
    · rw [hG'over]
      simp only [Bool.false_eq_true, if_false]
      rw [hg'eq]
      show otherPlayer gr.currentPlayer = otherPlayer g.currentPlayer
      rw [hcp]

/-- C7 witness: the end-of-game conclusions evaluated on `gEnd`, where
player 0 plays their last tile with the bag empty. -/
theorem claim_C7_end_of_game_witness :
    gEndRes.gameOver = true ∧ gEndRes.winner = 0 := by
  have hc := claim_C7_end_of_game gEnd [⟨⟨0, 1⟩, ⟨1, 0⟩⟩] 2 gEndRes
    (by decide) (by decide) (by decide)
  refine ⟨by decide, ?_⟩
  exact (hc.2.2.1 (by decide)).1 (by decide)

/-! ## Board connectivity invariant (C8) -/

theorem hasNeighbor_mono (b b' : Board)
    (hmono : ∀ q, (b.get q).isSome = true → (b'.get q).isSome = true)
    (p : Position) (h : b.hasNeighbor p = true) : b'.hasNeighbor p = true := by
  unfold Board.hasNeighbor Board.has at h ⊢
  rw [List.any_eq_true] at h ⊢
  obtain ⟨q, hq, hocc⟩ := h
  exact ⟨q, hq, hmono q hocc⟩

theorem get_set_isSome_mono (b : Board) (p : Position) (t : Tile) (q : Position)
    (h : (b.get q).isSome = true) : ((b.set p t).get q).isSome = true := by
  rw [Board.get_set]
  by_cases hqp : q = p
  · rw [if_pos hqp]; rfl
  · rw [if_neg hqp]; exact h

theorem conn_set (b : Board) (p : Position) (t : Tile)
    (hconn : ∀ q, (b.get q).isSome = true → q = origin ∨ b.hasNeighbor q = true)
    (hp : p = origin ∨ b.hasNeighbor p = true) :
    ∀ q, ((b.set p t).get q).isSome = true →
      q = origin ∨ (b.set p t).hasNeighbor q = true := by
  intro q hq
  rw [Board.get_set] at hq
  by_cases hqp : q = p
  · subst hqp
    rcases hp with hp | hp
    · exact Or.inl hp
    · exact Or.inr (hasNeighbor_mono b _ (get_set_isSome_mono b q t) q hp)
  · rw [if_neg hqp] at hq
    rcases hconn q hq with hc | hc
    · exact Or.inl hc
    · exact Or.inr (hasNeighbor_mono b _ (get_set_isSome_mono b p t) q hc)

theorem validatePlacement_conn (tb : Board) (p : Position) (t : Tile) (ff : Bool)
    (hval : validatePlacement tb p t ff = true)
    (hff : ff = true → tb.isEmpty = true) :
    p = origin ∨ tb.hasNeighbor p = true := by
  unfold validatePlacement at hval
  by_cases h1 : tb.has p
  · rw [if_pos h1] at hval; cases hval
  · rw [if_neg h1] at hval
    cases hff2 : ff with
    | true =>
      have hemp := hff hff2
      rw [hff2] at hval
      rw [if_pos (by simp [hemp])] at hval
      exact Or.inl (by simpa using hval)
    | false =>
      rw [hff2] at hval
      by_cases hn : tb.hasNeighbor p
      · exact Or.inr hn
      · rw [if_neg (by simp)] at hval
        rw [if_pos (by simp [hn])] at hval
        cases hval

theorem validateSingleTile_conn (b : Board) (pos : Position) (t : Tile)
    (hval : validateSingleTile b pos t = true) :
    pos = origin ∨ b.hasNeighbor pos = true := by
  unfold validateSingleTile at hval
  by_cases h1 : b.has pos
  · rw [if_pos h1] at hval; cases hval
  · rw [if_neg h1] at hval
    by_cases he : b.isEmpty
    · rw [if_pos he] at hval
      exact Or.inl (by simpa using hval)
    · rw [if_neg he] at hval
      by_cases hn : b.hasNeighbor pos
      · exact Or.inr hn
      · rw [if_pos (by simp [hn])] at hval
        cases hval

theorem placeLoop_result : ∀ (ps : List Placement) (tb : Board) (ff : Bool)
    (tb' : Board), placeLoop tb ps ff = some tb' → tb' = applyPs tb ps := by
  intro ps
  induction ps with
  | nil =>
    intro tb ff tb' h
    exact (Option.some.inj h).symm
  | cons p rest ih =>
    intro tb ff tb' h
    rw [placeLoop] at h
    by_cases hv : validatePlacement tb p.pos p.tile ff
    · rw [if_pos hv] at h
      exact ih _ false tb' h
    · rw [if_neg hv] at h; cases h

theorem placeLoop_conn : ∀ (ps : List Placement) (tb : Board) (ff : Bool)
    (tb' : Board), placeLoop tb ps ff = some tb' →
    (ff = true → tb.isEmpty = true) →
    (∀ q, (tb.get q).isSome = true → q = origin ∨ tb.hasNeighbor q = true) →
    (∀ q, (tb'.get q).isSome = true → q = origin ∨ tb'.hasNeighbor q = true) := by
  intro ps
  induction ps with
  | nil =>
    intro tb ff tb' h hff hconn
    rw [← Option.some.inj h]
    exact hconn
  | cons p rest ih =>
    intro tb ff tb' h hff hconn
    rw [placeLoop] at h
    by_cases hv : validatePlacement tb p.pos p.tile ff
    · rw [if_pos hv] at h
      exact ih _ false tb' h (by intro habs; exact absurd habs (by decide))
        (conn_set tb p.pos p.tile hconn
          (validatePlacement_conn tb p.pos p.tile ff hv hff))
    · rw [if_neg hv] at h; cases h

theorem validateMove_conn (b : Board) (ps : List Placement) (ff : Bool)
    (hval : validateMove b ps ff = true)
    (hconn : ∀ q, (b.get q).isSome = true → q = origin ∨ b.hasNeighbor q = true) :
    ∀ q, ((applyPs b ps).get q).isSome = true →
      q = origin ∨ (applyPs b ps).hasNeighbor q = true := by
  match ps with
  | [p] =>
    have hsingle : validateSingleTile b p.pos p.tile = true := hval
    have : applyPs b [p] = b.set p.pos p.tile := rfl
    rw [this]
    exact conn_set b p.pos p.tile hconn
      (validateSingleTile_conn b p.pos p.tile hsingle)
  | [] => cases hval
  | p0 :: p1 :: rest =>
    have hval' : (if !((p1 :: rest).all (fun p => decide (p.pos.row = p0.pos.row))) &&
        !((p1 :: rest).all (fun p => decide (p.pos.col = p0.pos.col))) then false
      else
        match placeLoop b (p0 :: p1 :: rest) (ff && b.isEmpty) with
        | none => false
        | some tb =>
          if (p1 :: rest).all (fun p => decide (p.pos.row = p0.pos.row)) then
            colsFilled tb p0.pos.row
              (((p0 :: p1 :: rest).map (fun p => p.pos.col)).foldl min p0.pos.col)
              (((p0 :: p1 :: rest).map (fun p => p.pos.col)).foldl max p0.pos.col)
          else
            rowsFilled tb p0.pos.col
              (((p0 :: p1 :: rest).map (fun p => p.pos.row)).foldl min p0.pos.row)
              (((p0 :: p1 :: rest).map (fun p => p.pos.row)).foldl max p0.pos.row)) =
        true := hval
    rcases hpl : placeLoop b (p0 :: p1 :: rest) (ff && b.isEmpty) with _ | tb
    · rw [hpl] at hval'
      by_cases hcoll : (!((p1 :: rest).all (fun p => decide (p.pos.row = p0.pos.row))) &&
          !((p1 :: rest).all (fun p => decide (p.pos.col = p0.pos.col)))) = true
      · rw [if_pos hcoll] at hval'; cases hval'
      · rw [if_neg hcoll] at hval'; cases hval'
    · have hconn' := placeLoop_conn (p0 :: p1 :: rest) b (ff && b.isEmpty) tb hpl
        (by intro hand; exact (Bool.and_eq_true _ _).mp hand |>.2) hconn
      rw [← placeLoop_result (p0 :: p1 :: rest) b (ff && b.isEmpty) tb hpl]
      exact hconn'

theorem checkGameOver_board (g g2 : GameState) (h : checkGameOver g = some g2) :
    g2.board = g.board := by
  have hupd : ∀ (x : GameState),
      ({ x with gameOver := true } : GameState).board = x.board := fun x => rfl
  unfold checkGameOver cgoTry at h
  by_cases h0 : g.hands 0 = []
  · rw [if_pos h0] at h
    rcases hb : g.bag with _ | b <;> rw [hb] at h <;> dsimp only at h
    · cases h
    · by_cases hbe : b.isEmpty
      · rw [if_pos hbe] at h
        rw [← Option.some.inj h, applyWinner_board, hupd, addScore_board]
      · rw [if_neg hbe] at h
        by_cases h1 : g.hands 1 = []
        · rw [if_pos h1] at h
          by_cases hbe1 : b.isEmpty
          · exact absurd hbe1 hbe
          · rw [if_neg hbe1] at h
            rw [← Option.some.inj h, applyWinner_board]
        · rw [if_neg h1] at h
          rw [← Option.some.inj h, applyWinner_board]
  · rw [if_neg h0] at h
    by_cases h1 : g.hands 1 = []
    · rw [if_pos h1] at h
      rcases hb : g.bag with _ | b <;> rw [hb] at h <;> dsimp only at h
      · cases h
      · by_cases hbe : b.isEmpty
        · rw [if_pos hbe] at h
          rw [← Option.some.inj h, applyWinner_board, hupd, addScore_board]
        · rw [if_neg hbe] at h
          rw [← Option.some.inj h, applyWinner_board]
    · rw [if_neg h1] at h
      rw [← Option.some.inj h, applyWinner_board]

/-- C8: on every game state reachable from an empty board by successful
`PlayTiles` calls, every occupied position other than (0,0) has at least one
occupied orthogonal neighbor. -/
theorem claim_C8_connectivity (g : GameState) (hg : Reaches g) :
    ∀ p : Position, (g.board.get p).isSome = true → p ≠ origin →
      g.board.hasNeighbor p = true := by
  induction hg with
  | init g hb =>
    intro p hp _
    rw [hb] at hp
    cases hp
  | step g ps k g' hr heq hk ih =>
    obtain ⟨-, hval, -, gr, gco, hgr, hco, hg'⟩ := playTiles_success g ps k g' heq hk
    obtain ⟨hand2, bag2, -, -, -, -, -, -, -, -, hgrb⟩ :=
      playRecorded_spec g ps gr hgr
    have hgboard : g'.board = applyPs g.board ps := by
      have hgcob : gco.board = gr.board := checkGameOver_board gr gco hco
      have hcpb : ∀ (x : GameState) (c : Fin 2),
          ({ x with currentPlayer := c } : GameState).board = x.board :=
        fun x c => rfl
      rw [hg']
      by_cases hover : gco.gameOver = true
      · rw [if_pos hover, hgcob, hgrb]
      · rw [if_neg hover, hcpb, hgcob, hgrb]
    intro p hp hporig
    rw [hgboard] at hp ⊢
    have hconn : ∀ q, (g.board.get q).isSome = true →
        q = origin ∨ g.board.hasNeighbor q = true := by
      intro q hq
      by_cases hqo : q = origin
      · exact Or.inl hqo
      · exact Or.inr (ih q hq hqo)
    rcases validateMove_conn g.board ps g.board.isEmpty hval hconn p hp with hc | hc
    · exact absurd hc hporig
    · exact hc

/-- C8 witness: the connectivity conclusion on the two-tile board reached
from `gEx` by the first move [(0,0) ↦ Red Circle, (0,1) ↦ Red Square]:
position (0,1) has an occupied neighbor. -/
theorem claim_C8_connectivity_witness :
    gEx2Res.board.hasNeighbor ⟨0, 1⟩ = true :=
  claim_C8_connectivity gEx2Res
    (Reaches.step gEx [⟨⟨0, 0⟩, ⟨0, 0⟩⟩, ⟨⟨0, 1⟩, ⟨1, 0⟩⟩] 2 gEx2Res
      (Reaches.init gEx rfl) (by decide) (by decide))
    ⟨0, 1⟩ (by decide) (by decide)

/-! ## Scoring: key-based vs line-based deduplication (C1) -/

theorem string_append_cancel (a b c : String) (h : a ++ b = a ++ c) : b = c := by
  apply String.ext
  have hd := congrArg String.data h
  rw [String.data_append, String.data_append] at hd
  exact List.append_cancel_left hd

theorem h_key_ne_v_key (a c : String) : ("h" ++ a) ≠ ("v" ++ c) := by
  intro h
  have hd := congrArg String.data h
  rw [String.data_append, String.data_append] at hd
  have h1 : ("h" : String).data = ['h'] := rfl
  have h2 : ("v" : String).data = ['v'] := rfl
  rw [h1, h2] at hd
  simp at hd

/-- The tile the buffer-free scans would read at the far end of a run: the
board holds the run's outermost tile at offset `length` from the center. -/
theorem scan_head (b : Board) (pos : Position) (dr dc : Int) (t : Tile)
    (ht : b.get pos = some t) (suffix : List Tile) :
    b.get ⟨pos.row + ((getLine b pos dr dc).length : Int) * dr,
           pos.col + ((getLine b pos dr dc).length : Int) * dc⟩ =
      some (((getLine b pos dr dc).reverse ++ t :: suffix).headD ⟨0, 0⟩) := by
  rcases hL : getLine b pos dr dc with _ | ⟨l0, ls⟩
  · simp only [List.length_nil, Nat.cast_zero, zero_mul, add_zero,
      List.reverse_nil, List.nil_append, List.headD]
    exact ht
  · obtain ⟨t0, rest0, hrev⟩ : ∃ t0 rest0, (l0 :: ls).reverse = t0 :: rest0 := by
      rcases hx : (l0 :: ls).reverse with _ | ⟨a, as⟩
      · exact absurd hx (by simp)
      · exact ⟨a, as, rfl⟩
    rw [hrev]
    have hgetlast : (l0 :: ls).get? ls.length = some t0 := by
      have hlrev : (l0 :: ls) = rest0.reverse ++ [t0] := by
        rw [← List.reverse_reverse (l0 :: ls), hrev, List.reverse_cons]
      have hlen2 : rest0.reverse.length = ls.length := by
        have hc := congrArg List.length hlrev
        simp at hc
        simp only [List.length_reverse]
        omega
      rw [hlrev, ← hlen2, List.get?_concat_length]
    have hb := getLineAux_get? b dr dc (b.length + 1) (pos.row + dr)
      (pos.col + dc) ls.length t0
      (by rw [show getLineAux b dr dc (b.length + 1) (pos.row + dr)
            (pos.col + dc) = getLine b pos dr dc from rfl, hL]
          exact hgetlast)
    have harg : pos.row + dr + (ls.length : Int) * dr =
        pos.row + (((l0 :: ls).length : Int)) * dr := by
      push_cast [List.length_cons]
      ring
    have harg2 : pos.col + dc + (ls.length : Int) * dc =
        pos.col + (((l0 :: ls).length : Int)) * dc := by
      push_cast [List.length_cons]
      ring
    rw [harg, harg2] at hb
    rw [hb]
    rfl

theorem hline_shape (b : Board) (pos : Position) (t : Tile)
    (ht : b.get pos = some t) :
    getHorizontalLine b pos =
      (getLine b pos 0 (-1)).reverse ++ t :: getLine b pos 0 1 := by
  unfold getHorizontalLine
  rw [ht]
  rfl

theorem vline_shape (b : Board) (pos : Position) (t : Tile)
    (ht : b.get pos = some t) :
    getVerticalLine b pos =
      (getLine b pos (-1) 0).reverse ++ t :: getLine b pos 1 0 := by
  unfold getVerticalLine
  rw [ht]
  rfl

theorem hline_head (b : Board) (pos : Position) (t : Tile)
    (ht : b.get pos = some t) :
    b.get (hStart b pos) = some ((getHorizontalLine b pos).headD ⟨0, 0⟩) := by
  rw [hline_shape b pos t ht]
  have hp : (⟨pos.row + ((getLine b pos 0 (-1)).length : Int) * 0,
      pos.col + ((getLine b pos 0 (-1)).length : Int) * (-1)⟩ : Position) =
      hStart b pos := by
    unfold hStart
    congr 1 <;> ring
  rw [← hp]
  exact scan_head b pos 0 (-1) t ht (getLine b pos 0 1)

theorem vline_head (b : Board) (pos : Position) (t : Tile)
    (ht : b.get pos = some t) :
    b.get (vStart b pos) = some ((getVerticalLine b pos).headD ⟨0, 0⟩) := by
  rw [vline_shape b pos t ht]
  have hp : (⟨pos.row + ((getLine b pos (-1) 0).length : Int) * (-1),
      pos.col + ((getLine b pos (-1) 0).length : Int) * 0⟩ : Position) =
      vStart b pos := by
    unfold vStart
    congr 1 <;> ring
  rw [← hp]
  exact scan_head b pos (-1) 0 t ht (getLine b pos 1 0)

theorem contains_iff_mem {α : Type} [BEq α] [LawfulBEq α] (l : List α) (x : α) :
    l.contains x = true ↔ x ∈ l := by
  simp

/-- One scoring step: `ScoreMove`'s string-keyed registration and the
specification's line-keyed registration move in lockstep as long as equal
string keys imply equal lines among the keys seen so far. -/
theorem scoreLineStep_rel (b : Board) (isH : Bool) (pre : String)
    (hpre : pre = if isH then "h" else "v") (line : List Tile)
    (start : Position)
    (hhead : 1 < line.length → b.get start = some (line.headD ⟨0, 0⟩))
    (a1 : Nat × List String) (a2 : Nat × List (Bool × Position))
    (h1 : a1.1 = a2.1) (h2 : a1.2 = a2.2.map (lineKey b))
    (hinj : ∀ k ∈ a2.2, 1 < line.length →
      lineKey b k = lineKey b (isH, start) → k = (isH, start)) :
    (scoreLineStep pre line a1).1 = (specScoreLineStep isH start line a2).1 ∧
    (scoreLineStep pre line a1).2 =
      (specScoreLineStep isH start line a2).2.map (lineKey b) ∧
    ((specScoreLineStep isH start line a2).2 = a2.2 ∨
     ((specScoreLineStep isH start line a2).2 = (isH, start) :: a2.2 ∧
      1 < line.length)) := by
  match line with
  | [] =>
    have hs : specScoreLineStep isH start [] a2 = a2 := by
      simp [specScoreLineStep]
    have hc : scoreLineStep pre [] a1 = a1 := rfl
    rw [hs, hc]
    exact ⟨h1, h2, Or.inl rfl⟩
  | [t] =>
    have hs : specScoreLineStep isH start [t] a2 = a2 := by
      simp [specScoreLineStep]
    have hc : scoreLineStep pre [t] a1 = a1 := rfl
    rw [hs, hc]
    exact ⟨h1, h2, Or.inl rfl⟩
  | t0 :: t1 :: rest =>
    have hlen : 1 < (t0 :: t1 :: rest).length := by simp
    have hget : b.get start = some t0 := hhead hlen
    have hkey : lineKey b (isH, start) = pre ++ tileName t0 := by
      unfold lineKey
      rw [hget, hpre]
      rfl
    have hc : scoreLineStep pre (t0 :: t1 :: rest) a1 =
        (if a1.2.contains (pre ++ tileName t0) then a1
         else (a1.1 + (t0 :: t1 :: rest).length +
           (if (t0 :: t1 :: rest).length = 6 then 6 else 0),
           (pre ++ tileName t0) :: a1.2)) := rfl
    have hs : specScoreLineStep isH start (t0 :: t1 :: rest) a2 =
        (if a2.2.contains (isH, start) then a2
         else (a2.1 + (t0 :: t1 :: rest).length +
           (if (t0 :: t1 :: rest).length = 6 then 6 else 0),
           (isH, start) :: a2.2)) := by
      unfold specScoreLineStep
      rw [if_pos (by simp)]
    have hiff : (a1.2.contains (pre ++ tileName t0) = true) ↔
        (a2.2.contains (isH, start) = true) := by
      rw [contains_iff_mem, contains_iff_mem, h2]
      constructor
      · intro hmem
        obtain ⟨k, hk, hkeq⟩ := List.mem_map.mp hmem
        have hkk := hinj k hk hlen (by rw [hkeq, hkey])
        rwa [← hkk]
      · intro hmem
        rw [← hkey]
        exact List.mem_map_of_mem _ hmem
    have hmemeq : a1.2.contains (pre ++ tileName t0) =
        a2.2.contains (isH, start) := by
      cases hca : a2.2.contains (isH, start) <;>
        cases hcb : a1.2.contains (pre ++ tileName t0) <;>
        rw [hca, hcb] at hiff <;> simp_all
    rw [hc, hs, hmemeq]
    by_cases hca : a2.2.contains (isH, start) = true
    · rw [if_pos hca, if_pos hca]
      exact ⟨h1, h2, Or.inl rfl⟩
    · rw [if_neg hca, if_neg hca]
      refine ⟨by simp [h1], ?_, Or.inr ⟨rfl, hlen⟩⟩
      simp only [List.map_cons]
      rw [h2, ← hkey]

/-- The double fold of `ScoreMove` computes the same total as the
specification's deduplicated sum, given occupied placements and key-collision
freedom. -/
theorem scoreFold_rel (b : Board) (ps : List Placement)
    (hocc : ∀ p ∈ ps, (b.get p.pos).isSome = true)
    (hkcf : KeyCollisionFree b ps) :
    ∀ (l : List Placement), (∀ p ∈ l, p ∈ ps) →
    ∀ (a1 : Nat × List String) (a2 : Nat × List (Bool × Position)),
      a1.1 = a2.1 → a1.2 = a2.2.map (lineKey b) →
      (∀ k ∈ a2.2, TouchedKey b ps k) →
      (l.foldl (fun acc p =>
          scoreLineStep "v" (getVerticalLine b p.pos)
            (scoreLineStep "h" (getHorizontalLine b p.pos) acc)) a1).1 =
      (l.foldl (fun acc p =>
          specScoreLineStep false (vStart b p.pos) (getVerticalLine b p.pos)
            (specScoreLineStep true (hStart b p.pos)
              (getHorizontalLine b p.pos) acc)) a2).1 := by
  intro l
  induction l with
  | nil =>
    intro _ a1 a2 h1 _ _
    exact h1
  | cons p rest ih =>
    intro hsub a1 a2 h1 h2 htk
    have hp : p ∈ ps := hsub p (List.mem_cons_self p rest)
    obtain ⟨t, ht⟩ := Option.isSome_iff_exists.mp (hocc p hp)
    have hheadH : 1 < (getHorizontalLine b p.pos).length →
        b.get (hStart b p.pos) =
          some ((getHorizontalLine b p.pos).headD ⟨0, 0⟩) :=
      fun _ => hline_head b p.pos t ht
    have hheadV : 1 < (getVerticalLine b p.pos).length →
        b.get (vStart b p.pos) =
          some ((getVerticalLine b p.pos).headD ⟨0, 0⟩) :=
      fun _ => vline_head b p.pos t ht
    have hinjH : ∀ k ∈ a2.2, 1 < (getHorizontalLine b p.pos).length →
        lineKey b k = lineKey b (true, hStart b p.pos) →
        k = (true, hStart b p.pos) := by
      intro k hk hlen hkeyeq
      obtain ⟨q, hq, hcase⟩ := htk k hk
      rcases hcase with ⟨hk1, hqlen, hk2⟩ | ⟨hk1, hqlen, hk2⟩
      · have hkpair : k = (true, hStart b q.pos) := Prod.ext hk1 hk2
        rw [hkpair] at hkeyeq ⊢
        rw [hkcf.1 q hq p hp hqlen hlen hkeyeq]
      · exfalso
        have hkpair : k = (false, k.2) := Prod.ext hk1 rfl
        rw [hkpair] at hkeyeq
        simp only [lineKey] at hkeyeq
        exact h_key_ne_v_key _ _ hkeyeq.symm
    obtain ⟨hr1, hr2, hr3⟩ := scoreLineStep_rel b true "h" rfl
      (getHorizontalLine b p.pos) (hStart b p.pos) hheadH a1 a2 h1 h2 hinjH
    have htk1 : ∀ k ∈ (specScoreLineStep true (hStart b p.pos)
        (getHorizontalLine b p.pos) a2).2, TouchedKey b ps k := by
      rcases hr3 with hr3 | ⟨hr3, hlen⟩
      · rw [hr3]; exact htk
      · rw [hr3]
        intro k hk
        rcases List.mem_cons.mp hk with rfl | hk
        · exact ⟨p, hp, Or.inl ⟨rfl, hlen, rfl⟩⟩
        · exact htk k hk
    have hinjV : ∀ k ∈ (specScoreLineStep true (hStart b p.pos)
        (getHorizontalLine b p.pos) a2).2,
        1 < (getVerticalLine b p.pos).length →
        lineKey b k = lineKey b (false, vStart b p.pos) →
        k = (false, vStart b p.pos) := by
      intro k hk hlen hkeyeq
      obtain ⟨q, hq, hcase⟩ := htk1 k hk
      rcases hcase with ⟨hk1, hqlen, hk2⟩ | ⟨hk1, hqlen, hk2⟩
      · exfalso
        have hkpair : k = (true, k.2) := Prod.ext hk1 rfl
        rw [hkpair] at hkeyeq
        simp only [lineKey] at hkeyeq
        exact h_key_ne_v_key _ _ hkeyeq
      · have hkpair : k = (false, vStart b q.pos) := Prod.ext hk1 hk2
        rw [hkpair] at hkeyeq ⊢
        rw [hkcf.2 q hq p hp hqlen hlen hkeyeq]
    obtain ⟨hs1, hs2, hs3⟩ := scoreLineStep_rel b false "v" rfl
      (getVerticalLine b p.pos) (vStart b p.pos) hheadV _ _ hr1 hr2 hinjV
    have htk2 : ∀ k ∈ (specScoreLineStep false (vStart b p.pos)
        (getVerticalLine b p.pos) (specScoreLineStep true (hStart b p.pos)
          (getHorizontalLine b p.pos) a2)).2, TouchedKey b ps k := by
      rcases hs3 with hs3 | ⟨hs3, hlen⟩
      · rw [hs3]; exact htk1
      · rw [hs3]
        intro k hk
        rcases List.mem_cons.mp hk with rfl | hk
        · exact ⟨p, hp, Or.inr ⟨rfl, hlen, rfl⟩⟩
        · exact htk1 k hk
    exact ih (fun q hq => hsub q (List.mem_cons_of_mem p hq)) _ _ hs1 hs2 htk2

/-- C1 counterexample: on `bKeyClash` (placements applied), the vertical
lines through (0,0) and (0,2) are distinct but share the topmost tile Red
Circle; `ScoreMove`'s key skips the second line and returns 5 where the
claim's sum over distinct lines is 3 + 2 + 3 = 8. -/
theorem claim_C1_counterexample :
    psKeyClash.all (fun p => (bKeyClash.get p.pos).isSome) = true ∧
    scoreMove bKeyClash psKeyClash = 5 ∧
    specScoreMove bKeyClash psKeyClash = 8 := by
  exact ⟨by decide, by decide, by decide⟩

/-- C1 (amended): with placements applied on the board, `ScoreMove` returns
the claim's sum — over every distinct line of length ≥ 2 touching a
placement, the line's length plus 6 per line of exactly 6, with the single
isolated placement scoring 1 — provided no two distinct same-direction
touched lines carry equal first tiles (`ScoreMove` deduplicates by direction
plus the first tile's printed name, which then coincides with line
identity). -/
theorem claim_C1_amended (b : Board) (ps : List Placement)
    (hocc : ∀ p ∈ ps, (b.get p.pos).isSome = true)
    (hkcf : KeyCollisionFree b ps) :
    scoreMove b ps = specScoreMove b ps := by
  by_cases hnil : ps = []
  · rw [hnil]
    rfl
  · unfold scoreMove specScoreMove
    rw [if_neg hnil, if_neg hnil]
    have hfold := scoreFold_rel b ps hocc hkcf ps (fun p hp => hp)
      (0, []) (0, []) rfl rfl (by intro k hk; cases hk)
    dsimp only
    rw [hfold]

/-- C1 witness: the amended theorem evaluated on the collision-free two-tile
board reached from `gEx` (a horizontal Red Circle, Red Square line). -/
theorem claim_C1_amended_witness :
    scoreMove gEx2Res.board [⟨⟨0, 0⟩, ⟨0, 0⟩⟩, ⟨⟨0, 1⟩, ⟨1, 0⟩⟩] =
      specScoreMove gEx2Res.board [⟨⟨0, 0⟩, ⟨0, 0⟩⟩, ⟨⟨0, 1⟩, ⟨1, 0⟩⟩] :=
  claim_C1_amended gEx2Res.board [⟨⟨0, 0⟩, ⟨0, 0⟩⟩, ⟨⟨0, 1⟩, ⟨1, 0⟩⟩]
    (by decide) (by decide)

/-! ## First-move validation (C2) -/

theorem isValidLine_sublist (l1 l2 : List Tile) (hsub : List.Sublist l1 l2)
    (h : isValidLine l2 = true) : isValidLine l1 = true := by
  rw [isValidLine_iff_spec] at h ⊢
  rcases h with h | ⟨h6, hnd, hshare⟩
  · exact Or.inl (le_trans hsub.length_le h)
  · by_cases h1 : l1.length ≤ 1
    · exact Or.inl h1
    · refine Or.inr ⟨le_trans hsub.length_le h6, ?_, ?_⟩
      · exact List.Nodup.sublist (List.Sublist.map _ hsub) hnd
      · rcases hshare with hc | hs
        · exact Or.inl (fun t ht u hu =>
            hc t (hsub.subset ht) u (hsub.subset hu))
        · exact Or.inr (fun t ht u hu =>
            hs t (hsub.subset ht) u (hsub.subset hu))

theorem remove_of_get_none (b : Board) (p : Position) (h : b.get p = none) :
    b.remove p = b := by
  induction b with
  | nil => rfl
  | cons e rest ih =>
    obtain ⟨q, t⟩ := e
    by_cases hpq : p = q
    · rw [Board.get, if_pos hpq] at h
      cases h
    · rw [Board.get, if_neg hpq] at h
      unfold Board.remove at ih ⊢
      simp only [List.filter_cons]
      rw [if_pos (by simp [Ne.symm hpq])]
      rw [ih h]

theorem length_set_fresh (b : Board) (p : Position) (t : Tile)
    (h : b.get p = none) : (b.set p t).length = b.length + 1 := by
  unfold Board.set
  rw [remove_of_get_none b p h]
  rfl

theorem rowGet_set (us : List Tile) (v : Tile) (tb : Board)
    (hdesc : ∀ q, tb.get q = rowGet us q) :
    ∀ q, (tb.set ⟨0, (us.length : Int)⟩ v).get q = rowGet (us ++ [v]) q := by
  intro q
  rw [Board.get_set]
  by_cases hq : q = ⟨0, (us.length : Int)⟩
  · rw [if_pos hq, hq]
    unfold rowGet
    rw [if_pos (by simp)]
    rw [show ((us.length : Int)).toNat = us.length from Int.toNat_natCast _]
    rw [List.get?_concat_length]
  · rw [if_neg hq, hdesc q]
    unfold rowGet
    by_cases hc : q.row = 0 ∧ 0 ≤ q.col ∧ q.col < (us.length : Int)
    · rw [if_pos hc, if_pos (by obtain ⟨h1, h2, h3⟩ := hc; refine ⟨h1, h2, ?_⟩; simp; omega)]
      have hlt : q.col.toNat < us.length := by omega
      rw [List.get?_append hlt]
    · rw [if_neg hc]
      by_cases hc2 : q.row = 0 ∧ 0 ≤ q.col ∧ q.col < ((us ++ [v]).length : Int)
      · exfalso
        obtain ⟨h1, h2, h3⟩ := hc2
        simp only [List.length_append, List.length_cons, List.length_nil] at h3
        have hcol : q.col = (us.length : Int) := by
          by_contra hne
          exact hc ⟨h1, h2, by push_cast at h3 ⊢; omega⟩
        exact hq (by cases q; simp_all)
      · rw [if_neg hc2]

theorem rowPlacementsFrom_mem : ∀ (vs : List Tile) (off : Nat) (p : Placement),
    p ∈ rowPlacementsFrom off vs →
    p.pos.row = 0 ∧ (off : Int) ≤ p.pos.col ∧
      p.pos.col < ((off + vs.length : Nat) : Int) := by
  intro vs
  induction vs with
  | nil => intro off p hp; cases hp
  | cons v vs' ih =>
    intro off p hp
    rcases List.mem_cons.mp hp with rfl | hp
    · refine ⟨rfl, le_refl _, ?_⟩
      push_cast [List.length_cons]
      omega
    · obtain ⟨h1, h2, h3⟩ := ih (off + 1) p hp
      refine ⟨h1, by push_cast at h2 ⊢; omega,
        by push_cast [List.length_cons] at h3 ⊢; omega⟩

theorem foldl_min_ge (l : List Int) : ∀ (a c : Int), c ≤ a →
    (∀ x ∈ l, c ≤ x) → c ≤ l.foldl min a := by
  induction l with
  | nil => intro a c hca _; exact hca
  | cons x xs ih =>
    intro a c hca hall
    exact ih (min a x) c (le_min hca (hall x (List.mem_cons_self x xs)))
      (fun y hy => hall y (List.mem_cons_of_mem x hy))

theorem foldl_max_le (l : List Int) : ∀ (a c : Int), a ≤ c →
    (∀ x ∈ l, x ≤ c) → l.foldl max a ≤ c := by
  induction l with
  | nil => intro a c hca _; exact hca
  | cons x xs ih =>
    intro a c hca hall
    exact ih (max a x) c (max_le hca (hall x (List.mem_cons_self x xs)))
      (fun y hy => hall y (List.mem_cons_of_mem x hy))

theorem rowLine_h (us : List Tile) (v : Tile) (b' : Board)
    (hdesc : ∀ q, b'.get q = rowGet (us ++ [v]) q)
    (hlen : b'.length = us.length + 1) :
    getHorizontalLine b' ⟨0, (us.length : Int)⟩ = us ++ [v] := by
  have hleft : getLine b' ⟨0, (us.length : Int)⟩ 0 (-1) =
      (List.range us.length).map
        (fun j => (us.get? (us.length - 1 - j)).getD ⟨0, 0⟩) := by
    unfold getLine
    apply getLineAux_eq_map b' 0 (-1) us.length (b'.length + 1) _ _ _ (by omega)
    · intro j hj
      have hpos : (⟨(0 : Int) + 0 + (j : Int) * 0,
          ((us.length : Int) + (-1)) + (j : Int) * (-1)⟩ : Position) =
          ⟨0, (us.length : Int) - 1 - j⟩ := by
        congr 1 <;> ring
      rw [hpos, hdesc]
      unfold rowGet
      rw [if_pos ⟨rfl, by push_cast; omega,
        by push_cast [List.length_append]; omega⟩]
      have htn : ((us.length : Int) - 1 - j).toNat = us.length - 1 - j := by
        omega
      rw [htn]
      have hrange : us.length - 1 - j < us.length := by omega
      rw [List.get?_append hrange, List.get?_eq_get hrange]
      rfl
    · have hpos : (⟨(0 : Int) + 0 + (us.length : Int) * 0,
          ((us.length : Int) + (-1)) + (us.length : Int) * (-1)⟩ : Position) =
          ⟨0, -1⟩ := by
        congr 1 <;> ring
      rw [hpos, hdesc]
      unfold rowGet
      rw [if_neg (by simp)]
  have hrev : ((List.range us.length).map
      (fun j => (us.get? (us.length - 1 - j)).getD ⟨0, 0⟩)).reverse = us := by
    apply List.ext_getElem
    · simp
    · intro i h1 h2
      simp only [List.getElem_reverse, List.getElem_map, List.getElem_range,
        List.length_reverse, List.length_map, List.length_range]
      have hi : i < us.length := h2
      rw [show us.length - 1 - (us.length - 1 - i) = i from by omega,
        List.get?_eq_get hi]
      rfl
  have hcenter : b'.get ⟨0, (us.length : Int)⟩ = some v := by
    rw [hdesc]
    unfold rowGet
    rw [if_pos ⟨rfl, by push_cast; omega,
      by push_cast [List.length_append, List.length_singleton]; omega⟩]
    rw [show ((us.length : Int)).toNat = us.length from by omega]
    rw [List.get?_concat_length]
  have hright : getLine b' ⟨0, (us.length : Int)⟩ 0 1 = [] := by
    unfold getLine
    have := getLineAux_eq_map b' 0 1 0 (b'.length + 1) ((0 : Int) + 0)
      ((us.length : Int) + 1) (fun _ => ⟨0, 0⟩) (by omega)
      (by intro j hj; omega)
      (by
        have hpos : (⟨(0 : Int) + 0 + (0 : Nat) * 0,
            ((us.length : Int) + 1) + (0 : Nat) * 1⟩ : Position) =
            ⟨0, (us.length : Int) + 1⟩ := by
          congr 1 <;> push_cast <;> ring
        rw [hpos, hdesc]
        unfold rowGet
        rw [if_neg (by
          dsimp only
          push_cast [List.length_append, List.length_singleton]
          omega)])
    simpa using this
  unfold getHorizontalLine
  dsimp only
  rw [hleft, hrev, hcenter, hright]
  simp

theorem rowLine_v (us : List Tile) (v : Tile) (b' : Board)
    (hdesc : ∀ q, b'.get q = rowGet (us ++ [v]) q)
    (hlen : b'.length = us.length + 1) :
    getVerticalLine b' ⟨0, (us.length : Int)⟩ = [v] := by
  have hcenter : b'.get ⟨0, (us.length : Int)⟩ = some v := by
    rw [hdesc]
    unfold rowGet
    rw [if_pos ⟨rfl, by push_cast; omega,
      by push_cast [List.length_append, List.length_singleton]; omega⟩]
    rw [show ((us.length : Int)).toNat = us.length from by omega]
    rw [List.get?_concat_length]
  have hup : getLine b' ⟨0, (us.length : Int)⟩ (-1) 0 = [] := by
    unfold getLine
    have := getLineAux_eq_map b' (-1) 0 0 (b'.length + 1) ((0 : Int) + (-1))
      ((us.length : Int) + 0) (fun _ => ⟨0, 0⟩) (by omega)
      (by intro j hj; omega)
      (by
        have hpos : (⟨(0 : Int) + (-1) + (0 : Nat) * (-1),
            ((us.length : Int) + 0) + (0 : Nat) * 0⟩ : Position) =
            ⟨-1, (us.length : Int)⟩ := by
          congr 1 <;> push_cast <;> ring
        rw [hpos, hdesc]
        unfold rowGet
        rw [if_neg (by simp)])
    simpa using this
  have hdown : getLine b' ⟨0, (us.length : Int)⟩ 1 0 = [] := by
    unfold getLine
    have := getLineAux_eq_map b' 1 0 0 (b'.length + 1) ((0 : Int) + 1)
      ((us.length : Int) + 0) (fun _ => ⟨0, 0⟩) (by omega)
      (by intro j hj; omega)
      (by
        have hpos : (⟨(0 : Int) + 1 + (0 : Nat) * 1,
            ((us.length : Int) + 0) + (0 : Nat) * 0⟩ : Position) =
            ⟨1, (us.length : Int)⟩ := by
          congr 1 <;> push_cast <;> ring
        rw [hpos, hdesc]
        unfold rowGet
        rw [if_neg (by simp)])
    simpa using this
  unfold getVerticalLine
  dsimp only
  rw [hup, hdown, hcenter]
  simp

theorem rowValidatePlacement (us : List Tile) (v : Tile) (vs' : List Tile)
    (tb : Board) (hne : us ≠ [])
    (hdesc : ∀ q, tb.get q = rowGet us q) (hlen : tb.length = us.length)
    (hval : isValidLine (us ++ v :: vs') = true) :
    validatePlacement tb ⟨0, (us.length : Int)⟩ v false = true := by
  have hn1 : 1 ≤ us.length := List.length_pos.mpr hne
  have hget : tb.get ⟨0, (us.length : Int)⟩ = none := by
    rw [hdesc]
    unfold rowGet
    rw [if_neg (by push_cast; omega)]
  unfold validatePlacement
  rw [if_neg (by simp [Board.has, hget])]
  rw [if_neg (by simp)]
  have hnb : tb.hasNeighbor ⟨0, (us.length : Int)⟩ = true := by
    unfold Board.hasNeighbor
    rw [List.any_eq_true]
    refine ⟨⟨0, (us.length : Int) - 1⟩, ?_, ?_⟩
    · unfold Position.neighbors
      simp
    · rw [Board.has, hdesc]
      unfold rowGet
      rw [if_pos ⟨rfl, by dsimp only; omega, by dsimp only; omega⟩]
      rw [show ((us.length : Int) - 1).toNat = us.length - 1 from by omega]
      rw [List.get?_eq_get (by omega : us.length - 1 < us.length)]
      rfl
  rw [if_neg (by simp [hnb])]
  have hdesc' := rowGet_set us v tb hdesc
  have hlen' : (tb.set ⟨0, (us.length : Int)⟩ v).length = us.length + 1 := by
    rw [length_set_fresh _ _ _ hget, hlen]
  dsimp only
  rw [rowLine_h us v _ hdesc' hlen', rowLine_v us v _ hdesc' hlen']
  have hv1 : isValidLine (us ++ [v]) = true := by
    apply isValidLine_sublist _ _ _ hval
    rw [show us ++ v :: vs' = (us ++ [v]) ++ vs' from by simp]
    exact List.sublist_append_left _ _
  rw [hv1, show isValidLine [v] = true from rfl]
  rfl

theorem placeLoopRow (vs : List Tile) : ∀ (us : List Tile) (tb : Board),
    us ≠ [] →
    (∀ q, tb.get q = rowGet us q) → tb.length = us.length →
    isValidLine (us ++ vs) = true →
    ∃ tb', placeLoop tb (rowPlacementsFrom us.length vs) false = some tb' ∧
      (∀ q, tb'.get q = rowGet (us ++ vs) q) ∧
      tb'.length = (us ++ vs).length := by
  induction vs with
  | nil =>
    intro us tb hne hdesc hlen hval
    exact ⟨tb, rfl, by simpa using hdesc, by simpa using hlen⟩
  | cons v vs' ih =>
    intro us tb hne hdesc hlen hval
    have hget : tb.get ⟨0, (us.length : Int)⟩ = none := by
      rw [hdesc]
      unfold rowGet
      rw [if_neg (by push_cast; omega)]
    have hvp := rowValidatePlacement us v vs' tb hne hdesc hlen hval
    have hdesc' := rowGet_set us v tb hdesc
    have hlen' : (tb.set ⟨0, (us.length : Int)⟩ v).length =
        (us ++ [v]).length := by
      rw [length_set_fresh _ _ _ hget, hlen]
      simp
    obtain ⟨tb', hpl, hd, hl⟩ := ih (us ++ [v]) (tb.set ⟨0, (us.length : Int)⟩ v)
      (by simp) hdesc' hlen' (by rw [show (us ++ [v]) ++ vs' = us ++ v :: vs' from by simp]; exact hval)
    refine ⟨tb', ?_, ?_, ?_⟩
    · rw [show rowPlacementsFrom us.length (v :: vs') =
        (⟨⟨0, (us.length : Int)⟩, v⟩ : Placement) ::
          rowPlacementsFrom (us.length + 1) vs' from rfl]
      rw [placeLoop, if_pos hvp]
      rw [show (us ++ [v]).length = us.length + 1 from by simp] at hpl
      exact hpl
    · intro q
      rw [hd q]
      rw [show (us ++ [v]) ++ vs' = us ++ v :: vs' from by simp]
    · rw [hl]
      simp

theorem validateMove_cons_none (b : Board) (ff : Bool) (p0 p1 : Placement)
    (rest : List Placement)
    (hloop : placeLoop b (p0 :: p1 :: rest) (ff && b.isEmpty) = none) :
    validateMove b (p0 :: p1 :: rest) ff = false := by
  show (if !((p1 :: rest).all (fun p => decide (p.pos.row = p0.pos.row))) &&
      !((p1 :: rest).all (fun p => decide (p.pos.col = p0.pos.col))) then false
    else
      match placeLoop b (p0 :: p1 :: rest) (ff && b.isEmpty) with
      | none => false
      | some tb =>
        if (p1 :: rest).all (fun p => decide (p.pos.row = p0.pos.row)) then
          colsFilled tb p0.pos.row
            (((p0 :: p1 :: rest).map (fun p => p.pos.col)).foldl min p0.pos.col)
            (((p0 :: p1 :: rest).map (fun p => p.pos.col)).foldl max p0.pos.col)
        else
          rowsFilled tb p0.pos.col
            (((p0 :: p1 :: rest).map (fun p => p.pos.row)).foldl min p0.pos.row)
            (((p0 :: p1 :: rest).map (fun p => p.pos.row)).foldl max p0.pos.row)) =
      false
  rw [hloop]
  by_cases hcoll : (!((p1 :: rest).all (fun p => decide (p.pos.row = p0.pos.row))) &&
      !((p1 :: rest).all (fun p => decide (p.pos.col = p0.pos.col)))) = true
  · rw [if_pos hcoll]
  · rw [if_neg hcoll]

theorem validateMove_cons_eval (b : Board) (ff : Bool) (p0 p1 : Placement)
    (rest : List Placement) (tb : Board)
    (hrow : (p1 :: rest).all (fun p => decide (p.pos.row = p0.pos.row)) = true)
    (hloop : placeLoop b (p0 :: p1 :: rest) (ff && b.isEmpty) = some tb)
    (hfill : colsFilled tb p0.pos.row
      (((p0 :: p1 :: rest).map (fun p => p.pos.col)).foldl min p0.pos.col)
      (((p0 :: p1 :: rest).map (fun p => p.pos.col)).foldl max p0.pos.col) =
      true) :
    validateMove b (p0 :: p1 :: rest) ff = true := by
  show (if !((p1 :: rest).all (fun p => decide (p.pos.row = p0.pos.row))) &&
      !((p1 :: rest).all (fun p => decide (p.pos.col = p0.pos.col))) then false
    else
      match placeLoop b (p0 :: p1 :: rest) (ff && b.isEmpty) with
      | none => false
      | some tb =>
        if (p1 :: rest).all (fun p => decide (p.pos.row = p0.pos.row)) then
          colsFilled tb p0.pos.row
            (((p0 :: p1 :: rest).map (fun p => p.pos.col)).foldl min p0.pos.col)
            (((p0 :: p1 :: rest).map (fun p => p.pos.col)).foldl max p0.pos.col)
        else
          rowsFilled tb p0.pos.col
            (((p0 :: p1 :: rest).map (fun p => p.pos.row)).foldl min p0.pos.row)
            (((p0 :: p1 :: rest).map (fun p => p.pos.row)).foldl max p0.pos.row)) =
      true
  rw [if_neg (by rw [hrow]; simp)]
  rw [hloop]
  dsimp only
  rw [if_pos hrow]
  exact hfill

theorem validateMove_first_reject (ps : List Placement)
    (h : ∀ p ∈ ps, p.pos ≠ origin) : validateMove ([] : Board) ps true = false := by
  match ps with
  | [] => rfl
  | [p] =>
    show validateSingleTile [] p.pos p.tile = false
    unfold validateSingleTile
    rw [if_neg (by simp [Board.has, Board.get])]
    rw [if_pos (show Board.isEmpty ([] : Board) = true from rfl)]
    exact decide_eq_false (h p (by simp))
  | p0 :: p1 :: rest =>
    have hvp : validatePlacement ([] : Board) p0.pos p0.tile
        (true && Board.isEmpty []) = false := by
      unfold validatePlacement
      rw [if_neg (by simp [Board.has, Board.get])]
      rw [if_pos (show (true && Board.isEmpty ([] : Board) &&
        Board.isEmpty ([] : Board)) = true from rfl)]
      exact decide_eq_false (h p0 (by simp))
    apply validateMove_cons_none
    rw [placeLoop, if_neg (by rw [hvp]; exact Bool.false_ne_true)]

theorem validateMove_row_accept (ts : List Tile) (hne : ts ≠ [])
    (hval : isValidLine ts = true) :
    validateMove ([] : Board) (rowPlacements ts) true = true := by
  match ts with
  | [t0] =>
    show validateSingleTile [] (⟨0, ((0 : Nat) : Int)⟩ : Position) t0 = true
    rfl
  | t0 :: t1 :: ts' =>
    rw [show rowPlacements (t0 :: t1 :: ts') =
      (⟨⟨0, ((0 : Nat) : Int)⟩, t0⟩ : Placement) ::
        (⟨⟨0, ((1 : Nat) : Int)⟩, t1⟩ : Placement) ::
          rowPlacementsFrom 2 ts' from rfl]
    have hdesc_nil : ∀ q : Position,
        Board.get ([] : Board) q = rowGet ([] : List Tile) q := by
      intro q
      unfold rowGet
      rw [if_neg (by rintro ⟨h1, h2, h3⟩; simp at h3; omega)]
      rfl
    have hdesc1 := rowGet_set ([] : List Tile) t0 ([] : Board) hdesc_nil
    have hdesc1' : ∀ q,
        (Board.set ([] : Board) (⟨0, ((0 : Nat) : Int)⟩ : Position) t0).get q =
          rowGet [t0] q := fun q => hdesc1 q
    obtain ⟨tb', hpl, hdesc', hlen'⟩ := placeLoopRow (t1 :: ts') [t0]
      (Board.set ([] : Board) (⟨0, ((0 : Nat) : Int)⟩ : Position) t0)
      (by simp) hdesc1' rfl hval
    have hdesc2 : ∀ q, tb'.get q = rowGet (t0 :: t1 :: ts') q := fun q => hdesc' q
    have hvp0 : validatePlacement ([] : Board) (⟨0, ((0 : Nat) : Int)⟩ : Position)
        t0 (true && Board.isEmpty []) = true := by
      unfold validatePlacement
      rw [if_neg (by simp [Board.has, Board.get])]
      rw [if_pos (show (true && Board.isEmpty ([] : Board) &&
        Board.isEmpty ([] : Board)) = true from rfl)]
      decide
    refine validateMove_cons_eval ([] : Board) true _ _ _ tb' ?_ ?_ ?_
    · rw [List.all_eq_true]
      intro p hp
      rcases List.mem_cons.mp hp with rfl | hp'
      · rfl
      · have h0 := (rowPlacementsFrom_mem ts' 2 p hp').1
        exact decide_eq_true (by rw [h0])
    · show (if validatePlacement ([] : Board) (⟨0, ((0 : Nat) : Int)⟩ : Position)
          t0 (true && Board.isEmpty []) = true then
            placeLoop (Board.set ([] : Board)
              (⟨0, ((0 : Nat) : Int)⟩ : Position) t0)
              ((⟨⟨0, ((1 : Nat) : Int)⟩, t1⟩ : Placement) ::
                rowPlacementsFrom 2 ts') false
          else none) = some tb'
      rw [if_pos hvp0]
      exact hpl
    · show colsFilled tb' 0
        ((((0 : Nat) : Int) :: ((1 : Nat) : Int) ::
          (rowPlacementsFrom 2 ts').map (fun p => p.pos.col)).foldl min
            ((0 : Nat) : Int))
        ((((0 : Nat) : Int) :: ((1 : Nat) : Int) ::
          (rowPlacementsFrom 2 ts').map (fun p => p.pos.col)).foldl max
            ((0 : Nat) : Int)) = true
      have hL : ∀ x ∈ (((0 : Nat) : Int) :: ((1 : Nat) : Int) ::
          (rowPlacementsFrom 2 ts').map (fun p => p.pos.col)),
          0 ≤ x ∧ x < ((ts'.length + 2 : Nat) : Int) := by
        intro x hx
        rcases List.mem_cons.mp hx with rfl | hx
        · constructor <;> omega
        rcases List.mem_cons.mp hx with rfl | hx
        · constructor <;> omega
        · rw [List.mem_map] at hx
          obtain ⟨p, hp, rfl⟩ := hx
          have hb := rowPlacementsFrom_mem ts' 2 p hp
          constructor
          · have := hb.2.1
            push_cast at this ⊢
            omega
          · have := hb.2.2
            push_cast at this ⊢
            omega
      have hmin : (0 : Int) ≤ (((0 : Nat) : Int) :: ((1 : Nat) : Int) ::
          (rowPlacementsFrom 2 ts').map (fun p => p.pos.col)).foldl min
            ((0 : Nat) : Int) :=
        foldl_min_ge _ _ _ (by omega) (fun x hx => (hL x hx).1)
      have hmax : (((0 : Nat) : Int) :: ((1 : Nat) : Int) ::
          (rowPlacementsFrom 2 ts').map (fun p => p.pos.col)).foldl max
            ((0 : Nat) : Int) ≤ ((ts'.length + 2 : Nat) : Int) - 1 :=
        foldl_max_le _ _ _ (by omega)
          (fun x hx => by have := (hL x hx).2; omega)
      unfold colsFilled
      apply decide_eq_true
      intro c hc
      rw [Finset.mem_Icc] at hc
      have hc0 : (0 : Int) ≤ c := le_trans hmin hc.1
      have hcn : c < ((ts'.length + 2 : Nat) : Int) := by
        have := le_trans hc.2 hmax
        omega
      rw [Board.has, hdesc2 ⟨0, c⟩]
      unfold rowGet
      rw [if_pos ⟨rfl, hc0,
        by simp only [List.length_cons]; push_cast at hcn ⊢; omega⟩]
      rw [show (⟨0, c⟩ : Position).col = c from rfl]
      have hlt : c.toNat < (t0 :: t1 :: ts').length := by
        simp only [List.length_cons]
        push_cast at hcn
        omega
      rw [List.get?_eq_get hlt]
      rfl

/-- C2 counterexample to order-independence of first-move acceptance: the
two placements (0,1) ↦ Red Square, (0,0) ↦ Red Circle contain (0,0) and
form a valid line, yet `validateMove` on the empty board rejects them in
this listing order while accepting the reversed listing. -/
theorem claim_C2_counterexample :
    validateMove ([] : Board)
      [⟨⟨0, 1⟩, ⟨1, 0⟩⟩, ⟨⟨0, 0⟩, ⟨0, 0⟩⟩] true = false ∧
    validateMove ([] : Board)
      [⟨⟨0, 0⟩, ⟨0, 0⟩⟩, ⟨⟨0, 1⟩, ⟨1, 0⟩⟩] true = true ∧
    isValidLine [⟨0, 0⟩, ⟨1, 0⟩] = true := by
  decide

/-- C2 (amended): on the first move (empty board), rejection is as
specified: a placement list in which no placement sits at (0,0) is
rejected.  Acceptance holds in listing order: laying out the tiles of any
nonempty valid line consecutively rightward from (0,0), first tile at
(0,0), is accepted.  Acceptance is not order-independent (see the
counterexample): the first listed placement must itself be at (0,0). -/
theorem claim_C2_amended :
    (∀ ps : List Placement, (∀ p ∈ ps, p.pos ≠ origin) →
      validateMove ([] : Board) ps true = false) ∧
    (∀ ts : List Tile, ts ≠ [] → isValidLine ts = true →
      validateMove ([] : Board) (rowPlacements ts) true = true) :=
  ⟨validateMove_first_reject, validateMove_row_accept⟩

/-- C2 witness: a lone placement away from the origin is rejected; the
three red tiles Circle, Square, Diamond laid rightward from (0,0) are
accepted. -/
theorem claim_C2_amended_witness :
    validateMove ([] : Board) [⟨⟨0, 2⟩, ⟨2, 0⟩⟩] true = false ∧
    validateMove ([] : Board)
      (rowPlacements [⟨0, 0⟩, ⟨1, 0⟩, ⟨2, 0⟩]) true = true :=
  ⟨claim_C2_amended.1 [⟨⟨0, 2⟩, ⟨2, 0⟩⟩] (by decide),
   claim_C2_amended.2 [⟨0, 0⟩, ⟨1, 0⟩, ⟨2, 0⟩] (by decide) (by decide)⟩

end Qwirkle
